import Mathlib

/-!
Verification of the x0v3rt workspace core (file manager + search indexer).

JavaScript strings are modelled as `List Char` (`Str` below); all string
operations used by the source (splitting, prefix tests, trimming, the
front-matter regex) are implemented here by structural recursion so that
concrete runs reduce by `rfl`/`decide`.  Functions are translated from
`src/electron/file-manager.js` and the SearchIndexer part of
`src/electron/extensions.js`; node's `path` (posix flavour) is modelled
to the extent those functions use it.
-/

set_option maxRecDepth 4000

/-- Model of a JavaScript string as a list of characters. -/
abbrev Str := List Char

/-- Shorthand turning a Lean string literal into the `Str` model. -/
def str (s : String) : Str := s.data

/-- JavaScript whitespace (the ASCII part of regex `\s` / `String.trim`). -/
def isJsWs (c : Char) : Bool :=
  c = ' ' || c = '\t' || c = '\n' || c = '\r' || c = '\x0b' || c = '\x0c'

/-- Split a character list on a separator character, keeping empty fields
(the behaviour of JavaScript `String.split` with a single-char separator). -/
def chSplit (sep : Char) : Str → List Str
  | [] => [[]]
  | c :: rest =>
    let r := chSplit sep rest
    if c = sep then [] :: r
    else
      match r with
      | [] => [[c]]
      | g :: gs => (c :: g) :: gs

/-- Boolean test that `p` is a leading piece of `s` (JS `String.startsWith`). -/
def strStartsWith : Str → Str → Bool
  | _, [] => true
  | [], _ :: _ => false
  | c :: s, p :: ps => p = c && strStartsWith s ps

/-- Strip JavaScript whitespace from both ends (JS `String.trim`). -/
def jsTrim (s : Str) : Str :=
  ((s.dropWhile isJsWs).reverse.dropWhile isJsWs).reverse

/-- Lowercase an ASCII character list (JS `String.toLowerCase` on the
inputs that occur here, which are ASCII file names and extensions). -/
def strLower (s : Str) : Str := s.map Char.toLower

/-- Path segments of a posix path: split on `/` and drop empty pieces. -/
def segsOf (s : Str) : List Str := (chSplit '/' s).filter (fun g => g ≠ [])

/-- Normalisation of an absolute posix path's segments: `.` is dropped and
`..` pops the previous segment, clamped at the root (node `path.resolve`). -/
def normAbsSegs (segs : List Str) : List Str :=
  segs.foldl
    (fun acc seg =>
      if seg = ['.'] then acc
      else if seg = ['.', '.'] then acc.dropLast
      else acc ++ [seg])
    []

/-- Normalisation of a relative posix path's segments: leading `..`
segments that cannot be popped are kept (node `path.normalize`). -/
def normRelSegs (segs : List Str) : List Str :=
  segs.foldl
    (fun acc seg =>
      if seg = ['.'] then acc
      else if seg = ['.', '.'] then
        match acc.getLast? with
        | some l => if l = ['.', '.'] then acc ++ [seg] else acc.dropLast
        | none => [seg]
      else acc ++ [seg])
    []

/-- Render absolute-path segments back to a path string. -/
def renderAbs (segs : List Str) : Str :=
  '/' :: List.intercalate ['/'] segs

/-- Model of node posix `path.normalize` (trailing-slash preservation is
irrelevant to the callers modelled here and is not reproduced). -/
def posixNormalize (p : Str) : Str :=
  if strStartsWith p ['/'] then renderAbs (normAbsSegs (segsOf p))
  else
    let r := normRelSegs (segsOf p)
    if r = [] then ['.'] else List.intercalate ['/'] r

/-- Model of node posix `path.resolve root p` for an absolute `root`:
an absolute `p` wins, otherwise `p` is joined onto `root`, normalising. -/
def posixResolve (root p : Str) : Str :=
  if strStartsWith p ['/'] then renderAbs (normAbsSegs (segsOf p))
  else renderAbs (normAbsSegs (segsOf root ++ segsOf p))

/-- Length of the longest common segment run of two segment lists. -/
def commonLen : List Str → List Str → Nat
  | a :: as, b :: bs => if a = b then commonLen as bs + 1 else 0
  | _, _ => 0

/-- Model of node posix `path.relative` between two absolute paths. -/
def posixRelative (fromP toP : Str) : Str :=
  let f := normAbsSegs (segsOf fromP)
  let t := normAbsSegs (segsOf toP)
  let c := commonLen f t
  List.intercalate ['/'] ((f.drop c).map (fun _ => ['.', '.']) ++ t.drop c)

/-- Model of node posix `path.join` of two pieces (as used by the source:
both pieces non-empty relative names, or an absolute left piece). -/
def posixJoin (a b : Str) : Str :=
  if a = [] then b else if b = [] then a else a ++ '/' :: b

/-- The reserved metadata directory name (`META_DIRNAME` in the source). -/
def META_DIRNAME : Str := str ".x0v3rt"

/-- Model of `isMetaPath` from file-manager.js: the relative path from the
workspace root to the target has a `.x0v3rt` component. -/
def isMetaPath (root target : Str) : Bool :=
  (chSplit '/' (posixRelative root target)).contains META_DIRNAME

/-- Error kinds thrown by the file-manager path layer. -/
inductive FmError where
  | noFolderOpen
  | invalidFilename
  | restrictedMeta
  deriving DecidableEq, Repr

/-- Model of `resolveSafePath` from file-manager.js for an open workspace
rooted at the absolute path `root`: normalize the input, resolve it against
the root, reject when the resolved string does not start with the root
string (the source's `resolved.startsWith(notesDir)` test), then reject
metadata paths unless `allowMeta` is set. -/
def resolveSafePath (root filename : Str) (allowMeta : Bool) : Except FmError Str :=
  let normalized := posixNormalize filename
  let resolved := posixResolve root normalized
  if ¬ strStartsWith resolved root then .error .invalidFilename
  else if isMetaPath root resolved && ¬ allowMeta then .error .restrictedMeta
  else .ok resolved

/-- Modelled from the spec's words for comparison with the code: `p` is a
descendant of `root` when it equals the root or extends it past a path
separator. -/
def isDescendantOfRoot (root p : Str) : Bool :=
  p = root || strStartsWith p (root ++ ['/'])

/-! ### Decimal numerals (used by the yaml model and by `getUniquePath`) -/

/-- Numeric value of an ASCII digit character. -/
def digitVal (c : Char) : Nat := c.toNat - 48

/-- Parse an all-digit character list as a natural number. -/
def natParse? (l : Str) : Option Nat :=
  match l with
  | [] => none
  | c :: rest =>
    if (c :: rest).all Char.isDigit then
      some ((c :: rest).foldl (fun a c => 10 * a + digitVal c) 0)
    else none

/-- Little-endian decimal digits of `n`, driven by fuel (`fuel > n` is
always enough since the argument strictly decreases). -/
def natDigitsRev (fuel n : Nat) : List Nat :=
  match fuel with
  | 0 => []
  | fuel + 1 => if n < 10 then [n] else n % 10 :: natDigitsRev fuel (n / 10)

/-- Decimal rendering of a natural number (JS `String(n)`). -/
def natRepr (n : Nat) : Str :=
  ((natDigitsRev (n + 1) n).map (fun d => Char.ofNat (d + 48))).reverse

/-- Decimal rendering of an integer. -/
def intRepr (n : Int) : Str :=
  if n < 0 then '-' :: natRepr n.natAbs else natRepr n.toNat

/-- Parse an optionally-negated all-digit character list as an integer. -/
def intParse? (l : Str) : Option Int :=
  match l with
  | [] => none
  | c :: rest =>
    if c = '-' then
      match natParse? rest with
      | some m => some (-(m : Int))
      | none => none
    else
      match natParse? (c :: rest) with
      | some m => some ((m : Int))
      | none => none

theorem natDigitsRev_fuel (n : Nat) :
    ∀ fuel, n < fuel → natDigitsRev fuel n = natDigitsRev (n + 1) n := by
  induction n using Nat.strong_induction_on with
  | _ n ih =>
    intro fuel hf
    match fuel, hf with
    | fuel + 1, hf =>
      by_cases h10 : n < 10
      · simp [natDigitsRev, h10]
      · have hdiv : n / 10 < n := Nat.div_lt_self (by omega) (by omega)
        simp only [natDigitsRev, if_neg h10]
        rw [ih (n / 10) hdiv fuel (by omega), ih (n / 10) hdiv n (by omega)]

theorem natDigitsRev_lt (n : Nat) :
    ∀ d ∈ natDigitsRev (n + 1) n, d < 10 := by
  induction n using Nat.strong_induction_on with
  | _ n ih =>
    intro d hd
    by_cases h10 : n < 10
    · simp [natDigitsRev, h10] at hd; omega
    · have hdiv : n / 10 < n := Nat.div_lt_self (by omega) (by omega)
      simp only [natDigitsRev, if_neg h10] at hd
      rcases List.mem_cons.mp hd with h | h
      · omega
      · rw [natDigitsRev_fuel (n / 10) n (by omega)] at h
        exact ih (n / 10) hdiv d h

theorem natDigitsRev_ne_nil (n : Nat) : natDigitsRev (n + 1) n ≠ [] := by
  by_cases h10 : n < 10 <;> simp [natDigitsRev, h10]

theorem natDigitsRev_val (n : Nat) :
    ((natDigitsRev (n + 1) n).reverse).foldl (fun a d => 10 * a + d) 0 = n := by
  induction n using Nat.strong_induction_on with
  | _ n ih =>
    by_cases h10 : n < 10
    · simp [natDigitsRev, h10]
    · have hdiv : n / 10 < n := Nat.div_lt_self (by omega) (by omega)
      simp only [natDigitsRev, if_neg h10]
      rw [natDigitsRev_fuel (n / 10) n (by omega)]
      rw [List.reverse_cons, List.foldl_append, ih (n / 10) hdiv]
      simp [Nat.div_add_mod]

theorem digitChar_isDigit {d : Nat} (h : d < 10) :
    (Char.ofNat (d + 48)).isDigit = true := by
  interval_cases d <;> decide

theorem digitChar_val {d : Nat} (h : d < 10) :
    digitVal (Char.ofNat (d + 48)) = d := by
  interval_cases d <;> decide

/-- Every character of a rendered natural number is a digit. -/
theorem natRepr_all_digit (n : Nat) : (natRepr n).all Char.isDigit = true := by
  rw [List.all_eq_true]
  intro c hc
  unfold natRepr at hc
  rw [List.mem_reverse, List.mem_map] at hc
  obtain ⟨d, hd, rfl⟩ := hc
  exact digitChar_isDigit (natDigitsRev_lt n d hd)

theorem natRepr_ne_nil (n : Nat) : natRepr n ≠ [] := by
  unfold natRepr
  simp [natDigitsRev_ne_nil n]

theorem natRepr_foldl (n : Nat) :
    (natRepr n).foldl (fun a c => 10 * a + digitVal c) 0 = n := by
  unfold natRepr
  rw [← List.map_reverse, List.foldl_map]
  have hlt : ∀ d ∈ (natDigitsRev (n + 1) n).reverse, d < 10 := by
    intro d hd
    exact natDigitsRev_lt n d (List.mem_reverse.mp hd)
  have hcong : ∀ (ds : List Nat), (∀ d ∈ ds, d < 10) → ∀ a : Nat,
      ds.foldl (fun a d => 10 * a + digitVal (Char.ofNat (d + 48))) a =
      ds.foldl (fun a d => 10 * a + d) a := by
    intro ds
    induction ds with
    | nil => intro _ _; rfl
    | cons d ds ihds =>
      intro hds a
      simp only [List.foldl_cons]
      rw [digitChar_val (hds d (List.mem_cons_self d ds))]
      exact ihds (fun x hx => hds x (List.mem_cons_of_mem d hx)) _
  rw [hcong _ hlt 0]
  exact natDigitsRev_val n

/-- Parsing a rendered natural number returns the number. -/
theorem natParse_natRepr (n : Nat) : natParse? (natRepr n) = some n := by
  match hm : natRepr n with
  | [] => exact absurd hm (natRepr_ne_nil n)
  | c :: rest =>
    have hdig : (c :: rest).all Char.isDigit = true := hm ▸ natRepr_all_digit n
    simp only [natParse?, if_pos hdig]
    rw [← hm, natRepr_foldl n]

/-- Parsing a rendered integer returns the integer. -/
theorem intParse_intRepr (n : Int) : intParse? (intRepr n) = some n := by
  unfold intRepr
  by_cases hneg : n < 0
  · rw [if_pos hneg]
    simp only [intParse?, if_pos rfl, if_true, natParse_natRepr]
    congr 1
    omega
  · rw [if_neg hneg]
    match hm : natRepr n.toNat with
    | [] => exact absurd hm (natRepr_ne_nil n.toNat)
    | c :: rest =>
      have hdig : (c :: rest).all Char.isDigit = true := hm ▸ natRepr_all_digit n.toNat
      have hc : c.isDigit = true := by
        rw [List.all_eq_true] at hdig
        exact hdig c (List.mem_cons_self c rest)
      have hcne : ¬ (c = '-') := by
        intro h; rw [h] at hc; exact absurd hc (by decide)
      simp only [intParse?, if_neg hcne]
      rw [← hm]
      simp only [natParse_natRepr]
      congr 1
      omega

/-! ### Yaml fragment

The source parses and emits front matter with the external js-yaml
library.  The library is modelled here on the fragment the front-matter
code exercises: a flat mapping of plain keys to scalar values (plain or
single-quoted strings, decimal integers, booleans, null), one `key: value`
line per entry, plus the empty flow mapping.  Line folding, nested
structures and other scalar styles are outside the modelled fragment. -/

/-- Scalar yaml values of the modelled fragment. -/
inductive YScalar where
  | str : Str → YScalar
  | int : Int → YScalar
  | bool : Bool → YScalar
  | null : YScalar
  deriving DecidableEq, Repr

/-- Yaml documents of the modelled fragment: a scalar or a flat mapping. -/
inductive YVal where
  | scalar : YScalar → YVal
  | map : List (Str × YScalar) → YVal
  deriving DecidableEq, Repr

/-- Characters allowed in an unquoted plain scalar of the fragment. -/
def plainSafeChar (c : Char) : Bool :=
  c.isAlphanum || c = ' ' || c = '_' || c = '-' || c = '.' || c = '/'

/-- Literals that yaml reads as booleans or null rather than strings. -/
def isKeywordLit (s : Str) : Bool :=
  s = ['t', 'r', 'u', 'e'] || s = ['f', 'a', 'l', 's', 'e']
    || s = ['n', 'u', 'l', 'l'] || s = ['~']

/-- A string may be emitted as a plain (unquoted) scalar exactly when
re-reading it yields the same string: nonempty, safe characters, no
leading/trailing space, not a keyword and not a numeral. -/
def plainOk (s : Str) : Bool :=
  !s.isEmpty && s.all plainSafeChar
    && !(s.head? == some ' ') && !(s.getLast? == some ' ')
    && !isKeywordLit s && (intParse? s).isNone

/-- Double every single quote (the single-quoted yaml escape). -/
def escQuote : Str → Str
  | [] => []
  | c :: rest => if c = '\x27' then '\x27' :: '\x27' :: escQuote rest else c :: escQuote rest

mutual

/-- Scan a single-quoted scalar after its opening quote, undoing the
doubled-quote escape; returns the content and the remainder after the
closing quote.  `scanQuotedQ` handles the state just after an unescaped
quote: another quote continues (the doubled-quote escape), anything else
closes the scalar. -/
def scanQuoted : Str → Option (Str × Str)
  | [] => none
  | c :: rest =>
    if c = '\x27' then scanQuotedQ rest
    else (scanQuoted rest).map (fun p => (c :: p.1, p.2))

def scanQuotedQ : Str → Option (Str × Str)
  | [] => some ([], [])
  | c2 :: rest2 =>
    if c2 = '\x27' then (scanQuoted rest2).map (fun p => ('\x27' :: p.1, p.2))
    else some ([], c2 :: rest2)

end

/-- Read one (already trimmed) scalar value of the fragment. -/
def parseVal (v : Str) : Option YScalar :=
  match v with
  | [] => some .null
  | c :: rest =>
    if c = '\x27' then
      match scanQuoted rest with
      | some (content, []) => some (.str content)
      | _ => none
    else
      let w := c :: rest
      if w = ['t', 'r', 'u', 'e'] then some (.bool true)
      else if w = ['f', 'a', 'l', 's', 'e'] then some (.bool false)
      else if w = ['n', 'u', 'l', 'l'] || w = ['~'] then some (.null)
      else if w.all plainSafeChar then
        match intParse? w with
        | some n => some (.int n)
        | none => some (.str w)
      else none

/-- Characters allowed in a mapping key of the fragment. -/
def keyChar (c : Char) : Bool := c.isAlphanum || c = '_' || c = '-'

/-- Keys are nonempty, start with a letter, digit or underscore (so no
line of the emitted mapping can begin with a dash) and use key characters
throughout. -/
def keyOk (k : Str) : Bool :=
  match k with
  | [] => false
  | c :: _ => (c.isAlphanum || c = '_') && k.all keyChar

/-- Read one `key: value` line of a block mapping: a bare `key:` maps to
null, `key: value` parses the trimmed value, anything else fails. -/
def parseKV (line : Str) : Option (Str × YScalar) :=
  let k := line.takeWhile keyChar
  let rest := line.dropWhile keyChar
  if keyOk k then
    if rest = [':'] then some (k, .null)
    else
      match rest with
      | c1 :: c2 :: v =>
        if c1 = ':' ∧ c2 = ' ' then (parseVal (jsTrim v)).map (fun s => (k, s)) else none
      | _ => none
  else none

/-- Read every line of a block mapping, failing if any line fails. -/
def linesAsKVs : List Str → Option (List (Str × YScalar))
  | [] => some []
  | l :: ls =>
    match parseKV l, linesAsKVs ls with
    | some kv, some rest => some (kv :: rest)
    | _, _ => none

/-- Model of js-yaml `load` on the fragment: the empty flow mapping, a
block mapping with distinct keys, or a single scalar line; anything else
is a parse failure (js-yaml raises, the caller catches). -/
def yamlLoad (raw : Str) : Option YVal :=
  if raw = ['\x7b', '\x7d'] then some (.map [])
  else if raw.isEmpty then none
  else
    match linesAsKVs (chSplit '\n' raw) with
    | some kvs => if (kvs.map Prod.fst).Nodup then some (.map kvs) else none
    | none =>
      match chSplit '\n' raw with
      | [l] => (parseVal (jsTrim l)).map .scalar
      | _ => none

/-- JavaScript falsiness of a loaded yaml value (the source computes
`yaml.load(raw) || null`). -/
def jsFalsy : YVal → Bool
  | .scalar (.str s) => s.isEmpty
  | .scalar (.int n) => n = 0
  | .scalar (.bool b) => !b
  | .scalar .null => true
  | .map _ => false

/-- Emit one scalar the way js-yaml dump does on the fragment: plain when
safe, single-quoted otherwise. -/
def renderScalar : YScalar → Str
  | .int n => intRepr n
  | .str s => if plainOk s then s else '\x27' :: (escQuote s ++ ['\x27'])
  | .bool b => if b then ['t', 'r', 'u', 'e'] else ['f', 'a', 'l', 's', 'e']
  | .null => ['n', 'u', 'l', 'l']

/-- One emitted `key: value` line, newline-terminated. -/
def yamlDumpLine (kv : Str × YScalar) : Str :=
  kv.1 ++ str ": " ++ renderScalar kv.2 ++ ['\n']

/-- Model of js-yaml `dump` on the fragment (the source passes
`lineWidth: 120, noRefs: true`; folding never triggers on the fragment's
single-line values). -/
def yamlDump : YVal → Str
  | .scalar s => renderScalar s ++ ['\n']
  | .map [] => ['\x7b', '\x7d', '\n']
  | .map (kv :: kvs) => ((kv :: kvs).map yamlDumpLine).foldr (· ++ ·) []

/-- Model of `buildFrontMatter` from file-manager.js: fences around the
dumped yaml, with a blank separator line after the closing fence. -/
def buildFrontMatter (data : YVal) : Str :=
  str "---\n" ++ yamlDump data ++ str "---\n\n"

/-! ### The front-matter regex

`parseFrontMatter` matches `^---\s*\n([\s\S]*?)\n---\s*\n?` against the
BOM-stripped content.  The matcher below reproduces the backtracking
behaviour: the greedy `\s*\n` tries the latest newline of the whitespace
run first, the lazy group then finds the earliest later `\n---`, and the
trailing `\s*\n?` greedily consumes whitespace after the closing fence. -/

/-- Least index at or after `idx` where `pat` occurs in the list (the
list argument is the suffix beginning at `idx`). -/
def findSubFrom (pat : Str) : Str → Nat → Option Nat
  | [], _ => none
  | c :: rest, idx =>
    if strStartsWith (c :: rest) pat then some idx else findSubFrom pat rest (idx + 1)

/-- Indices of newline characters, offset by the second argument. -/
def nlPositionsAux : Str → Nat → List Nat
  | [], _ => []
  | c :: rest, i =>
    if c = '\n' then i :: nlPositionsAux rest (i + 1) else nlPositionsAux rest (i + 1)

/-- Indices of newline characters in the list. -/
def nlPositions (l : Str) : List Nat := nlPositionsAux l 0

/-- Attempt the lazy group at a fixed start `pos` inside `t` (the content
after the opening `---`): find the earliest `\n---`, then consume the
trailing whitespace run.  Returns the raw yaml block and the body. -/
def fmTryAt (t : Str) (pos : Nat) : Option (Str × Str) :=
  match findSubFrom (str "\n---") (t.drop pos) pos with
  | none => none
  | some i =>
    let raw := (t.drop pos).take (i - pos)
    let after := t.drop (i + 4)
    let ws := after.takeWhile isJsWs
    some (raw, after.drop ws.length)

/-- First success of `f` over a list, in order. -/
def firstSome {α β : Type} (f : α → Option β) : List α → Option β
  | [] => none
  | a :: as =>
    match f a with
    | some b => some b
    | none => firstSome f as

/-- Match the fence pattern after the opening `---`: try each newline of
the leading whitespace run, latest first (the greedy `\s*\n`). -/
def fmMatchBody (t : Str) : Option (Str × Str) :=
  firstSome (fun j => fmTryAt t (j + 1)) (nlPositions (t.takeWhile isJsWs)).reverse

/-- Result record of `parseFrontMatter` (`data`/`body`/`raw`/`hasFrontMatter`). -/
structure FMParsed where
  data : Option YVal
  body : Str
  raw : Option Str
  hasFrontMatter : Bool
  deriving DecidableEq, Repr

/-- Strip a leading byte-order mark, as the source does. -/
def stripBOM (content : Str) : Str :=
  match content with
  | c :: rest => if c = '\uFEFF' then rest else c :: rest
  | [] => []

/-- Model of `parseFrontMatter` from file-manager.js. -/
def parseFrontMatter (content : Str) : FMParsed :=
  let trimmed := stripBOM content
  if strStartsWith trimmed (str "---") then
    match fmMatchBody (trimmed.drop 3) with
    | some (raw, body) =>
      let data :=
        match yamlLoad raw with
        | some v => if jsFalsy v then none else some v
        | none => none
      { data := data, body := body, raw := some raw, hasFrontMatter := true }
    | none => { data := none, body := content, raw := none, hasFrontMatter := false }
  else { data := none, body := content, raw := none, hasFrontMatter := false }

/-! ### Write path and version snapshots (writeFile / undoFile) -/

/-- Node `path.basename`: the last path segment. -/
def basenameOf (p : Str) : Str := ((segsOf p).getLast?).getD []

/-- Node `path.extname`: the part of the basename from its last dot,
empty when there is no dot or the only dot is the leading one. -/
def extnameOf (p : Str) : Str :=
  let b := basenameOf p
  let afterRev := b.reverse.takeWhile (fun c => c ≠ '.')
  if afterRev.length = b.length then []
  else if afterRev.length + 1 = b.length then []
  else '.' :: afterRev.reverse

/-- Boolean test that `suf` is a trailing piece of `s` (JS `endsWith`). -/
def strEndsWith (s suf : Str) : Bool := strStartsWith s.reverse suf.reverse

/-- Node `path.basename(p, ext)`: the basename with a matching non-total
extension suffix removed. -/
def basenameNoExt (p ext : Str) : Str :=
  let b := basenameOf p
  if b ≠ ext ∧ strEndsWith b ext then b.take (b.length - ext.length) else b

/-- JS object update `o[k] = v` on an insertion-ordered key/value list:
an existing key keeps its position, a new key is appended. -/
def setKV (m : List (Str × YScalar)) (k : Str) (v : YScalar) : List (Str × YScalar) :=
  if m.any (fun kv => kv.1 = k) then m.map (fun kv => if kv.1 = k then (k, v) else kv)
  else m ++ [(k, v)]

/-- JS object spread `\x7b...base, ...upd\x7d` on insertion-ordered lists. -/
def objAssign (base upd : List (Str × YScalar)) : List (Str × YScalar) :=
  upd.foldl (fun acc kv => setKV acc kv.1 kv.2) base

/-- The synthesized front matter of `writeFile`/`createFile`: title plus
created/modified timestamps, overridden by system then user defaults. -/
def synthFrontMatter (filename ts : Str)
    (sys usr : List (Str × YScalar)) : Str :=
  let ext := strLower (extnameOf filename)
  let baseTitle := basenameNoExt filename ext
  buildFrontMatter (.map (objAssign (objAssign
    [(str "title", .str baseTitle),
     (str "created_timestamp", .str ts),
     (str "modified_timestamp", .str ts)] sys) usr))

/-- Per-document state: the live content (none when the file does not
exist) and the document's snapshot folder, a name/content list in
creation order. -/
structure DocState where
  content : Option Str
  snapshots : List (Str × Str)
  deriving DecidableEq, Repr

/-- The front-matter write policy of `writeFile`: for `.md` files whose
incoming content has no front matter, carry forward the previous file's
front matter (parsed form if truthy, else the raw block verbatim), or
synthesize fresh front matter when there was none; other extensions are
stored as-is.  An empty previous content is falsy in the source's
`previousContent ? parseFrontMatter(previousContent) : null`. -/
def writeFinalContent (filename : Str) (previousContent : Option Str)
    (input ts : Str) (sys usr : List (Str × YScalar)) : Str :=
  let ext := strLower (extnameOf filename)
  if ext = str ".md" then
    if (parseFrontMatter input).hasFrontMatter then input
    else
      let existing :=
        match previousContent with
        | some prev => if prev.isEmpty then none else some (parseFrontMatter prev)
        | none => none
      match existing with
      | some ex =>
        if ex.hasFrontMatter then
          match ex.data with
          | some d => buildFrontMatter d ++ input
          | none =>
            match ex.raw with
            | some raw => str "---\n" ++ raw ++ str "\n---\n\n" ++ input
            | none => input
        else synthFrontMatter filename ts sys usr ++ input
      | none => synthFrontMatter filename ts sys usr ++ input
  else input

/-- The snapshot step of `writeFile`: previous content that exists and
differs from the final content is written to the snapshot folder under
`timestamp.md`. -/
def writeSnapshots (st : DocState) (content snapTs : Str) : List (Str × Str) :=
  match st.content with
  | some prev =>
    if prev ≠ content then st.snapshots ++ [(snapTs ++ str ".md", prev)]
    else st.snapshots
  | none => st.snapshots

/-- Model of `writeFile` from file-manager.js on one document: compute the
final (possibly front-matter-augmented) content, snapshot the previous
content when it exists and differs, persist, and return the final
content. -/
def writeFile (filename : Str) (st : DocState) (input ts snapTs : Str)
    (sys usr : List (Str × YScalar)) : DocState × Str :=
  let content := writeFinalContent filename st.content input ts sys usr
  ({ content := some content, snapshots := writeSnapshots st content snapTs }, content)

/-- JS string comparison (`<` over UTF-16 code units; all characters in
play are in the basic plane, where code point order coincides). -/
def lexLt : Str → Str → Bool
  | [], [] => false
  | [], _ :: _ => true
  | _ :: _, [] => false
  | a :: as, b :: bs =>
    if a.toNat < b.toNat then true
    else if b.toNat < a.toNat then false
    else lexLt as bs

/-- Maximum of a list under `lexLt` with an accumulator, the model of the
source's `entries.sort().reverse()[0]`. -/
def lexMaxOf : List Str → Str → Str
  | [], acc => acc
  | x :: xs, acc => lexMaxOf xs (if lexLt acc x then x else acc)

/-- Error of `undoFile` when no snapshot exists. -/
inductive UndoErr where
  | noPreviousVersions
  deriving DecidableEq, Repr

/-- Model of `undoFile` from file-manager.js on one document: take the
lexicographically last `.md` snapshot, save the current content as a
`-redo.md` snapshot when it exists and differs, overwrite the live
document with the restored content and return it. -/
def undoFile (st : DocState) (redoTs : Str) : Except UndoErr (DocState × Str) :=
  let entries := st.snapshots.map Prod.fst
  if entries.isEmpty then .error .noPreviousVersions
  else
    match entries.filter (fun e => strEndsWith e (str ".md")) with
    | [] => .error .noPreviousVersions
    | e :: es =>
      let latest := lexMaxOf es e
      let restored := ((st.snapshots.find? (fun kv => kv.1 = latest)).map Prod.snd).getD []
      let snaps :=
        match st.content with
        | some cur =>
          if cur ≠ restored then st.snapshots ++ [(redoTs ++ str "-redo.md", cur)]
          else st.snapshots
        | none => st.snapshots
      .ok ({ content := some restored, snapshots := snaps }, restored)

theorem lexLt_irrefl (s : Str) : lexLt s s = false := by
  induction s with
  | nil => rfl
  | cons c cs ih => simp [lexLt, ih]

theorem lexMaxOf_append (l1 l2 : List Str) (acc : Str) :
    lexMaxOf (l1 ++ l2) acc = lexMaxOf l2 (lexMaxOf l1 acc) := by
  induction l1 generalizing acc with
  | nil => rfl
  | cons x xs ih => simp [lexMaxOf, ih]

theorem lexMaxOf_below (l : List Str) :
    ∀ acc m, (∀ x ∈ l, lexLt x m = true) → (acc = m ∨ lexLt acc m = true) →
      (lexMaxOf l acc = m ∨ lexLt (lexMaxOf l acc) m = true) := by
  induction l with
  | nil => intro acc m _ hacc; exact hacc
  | cons x xs ih =>
    intro acc m hall hacc
    simp only [lexMaxOf]
    apply ih
    · intro y hy; exact hall y (List.mem_cons_of_mem x hy)
    · by_cases hx : lexLt acc x = true
      · simp only [hx, if_true]
        exact Or.inr (hall x (List.mem_cons_self x xs))
      · simp only [hx, if_false]
        exact hacc

/-- The maximum of a list whose last element strictly dominates all
earlier ones (and the accumulator) is that last element. -/
theorem lexMaxOf_last (l : List Str) (m acc : Str)
    (hall : ∀ x ∈ l, lexLt x m = true) (hacc : acc = m ∨ lexLt acc m = true) :
    lexMaxOf (l ++ [m]) acc = m := by
  rw [lexMaxOf_append]
  rcases lexMaxOf_below l acc m hall hacc with h | h
  · simp [lexMaxOf, h, lexLt_irrefl]
  · simp [lexMaxOf, h]

theorem strStartsWith_append (p t : Str) : strStartsWith (p ++ t) p = true := by
  induction p with
  | nil =>
    rw [List.nil_append]
    cases t with
    | nil => rfl
    | cons c cs => rfl
  | cons c cs ih => simp [strStartsWith, ih]

theorem strEndsWith_append (x suf : Str) : strEndsWith (x ++ suf) suf = true := by
  unfold strEndsWith
  rw [List.reverse_append]
  exact strStartsWith_append suf.reverse x.reverse

theorem find?_append_right {α : Type} (p : α → Bool) (l1 l2 : List α)
    (h : ∀ x ∈ l1, p x = false) : (l1 ++ l2).find? p = l2.find? p := by
  induction l1 with
  | nil => rfl
  | cons x xs ih =>
    simp only [List.cons_append, List.find?]
    rw [h x (List.mem_cons_self x xs)]
    exact ih (fun y hy => h y (List.mem_cons_of_mem x hy))

/-- Behaviour of `undoFile` when the snapshot folder ends with a `.md`
entry that strictly dominates every earlier entry name: that entry is
restored, and the current content is kept as a redo snapshot when it
differs. -/
theorem undoFile_last (S1 : List (Str × Str)) (M W cur rts : Str)
    (hdom : ∀ nm ∈ S1.map Prod.fst, lexLt nm M = true)
    (hM : strEndsWith M (str ".md") = true) :
    undoFile ⟨some cur, S1 ++ [(M, W)]⟩ rts =
      .ok (⟨some W,
            if cur ≠ W then (S1 ++ [(M, W)]) ++ [(rts ++ str "-redo.md", cur)]
            else S1 ++ [(M, W)]⟩, W) := by
  have hne : ∀ kv ∈ S1, ¬ (kv.1 = M) := by
    intro kv hkv h
    have := hdom kv.1 (List.mem_map_of_mem Prod.fst hkv)
    rw [h, lexLt_irrefl] at this
    exact absurd this (by decide)
  have hmap : (S1 ++ [(M, W)]).map Prod.fst = S1.map Prod.fst ++ [M] := by simp
  have hempty : (S1.map Prod.fst ++ [M]).isEmpty = false := by
    cases h : S1.map Prod.fst ++ [M] with
    | nil => exact absurd h (by simp)
    | cons a as => rfl
  simp only [undoFile]
  rw [hmap, hempty]
  simp only [Bool.false_eq_true, if_false]
  have hfilter : (S1.map Prod.fst ++ [M]).filter (fun e => strEndsWith e (str ".md"))
      = (S1.map Prod.fst).filter (fun e => strEndsWith e (str ".md")) ++ [M] := by
    rw [List.filter_append]
    simp [hM]
  rw [hfilter]
  have hfind : ((S1 ++ [(M, W)]).find? (fun kv => kv.1 = M)) = some (M, W) := by
    rw [find?_append_right]
    · simp [List.find?]
    · intro kv hkv
      simp only [decide_eq_false_iff_not]
      exact hne kv hkv
  have hfdom : ∀ x ∈ (S1.map Prod.fst).filter (fun e => strEndsWith e (str ".md")),
      lexLt x M = true := by
    intro x hx
    exact hdom x (List.mem_of_mem_filter hx)
  cases hfs : (S1.map Prod.fst).filter (fun e => strEndsWith e (str ".md")) with
  | nil =>
    simp only [hfs, List.nil_append]
    have : lexMaxOf ([] : List Str) M = M := rfl
    rw [this, hfind]
    rfl
  | cons e es =>
    simp only [hfs, List.cons_append]
    have hmax : lexMaxOf (es ++ [M]) e = M := by
      apply lexMaxOf_last
      · intro x hx
        exact hfdom x (by rw [hfs]; exact List.mem_cons_of_mem e hx)
      · exact Or.inr (hfdom e (by rw [hfs]; exact List.mem_cons_self e es))
    rw [hmax, hfind]
    rfl

/-- C5: writing a document twice with the second write's persisted content
differing from the first's creates exactly one snapshot between the
writes (holding the first write's persisted content), and a subsequent
undo restores the on-disk content to exactly the first write's persisted
content and returns it.  The snapshot-name hypothesis says the second
write's timestamped snapshot name sorts after every name already in the
folder, which the ISO timestamp naming guarantees. -/
theorem write_twice_then_undo
    (filename a b ts1 ts2 sn1 sn2 rts : Str) (st0 st1 st2 : DocState) (a1 b2 : Str)
    (sys usr : List (Str × YScalar))
    (h1 : writeFile filename st0 a ts1 sn1 sys usr = (st1, a1))
    (h2 : writeFile filename st1 b ts2 sn2 sys usr = (st2, b2))
    (hne : b2 ≠ a1)
    (hdom : ∀ nm ∈ st1.snapshots.map Prod.fst, lexLt nm (sn2 ++ str ".md") = true) :
    st2.snapshots = st1.snapshots ++ [(sn2 ++ str ".md", a1)]
    ∧ ∃ st3, undoFile st2 rts = .ok (st3, a1) ∧ st3.content = some a1 := by
  simp only [writeFile] at h1 h2
  injection h1 with hst1 hout1
  injection h2 with hst2 hout2
  subst hout1
  subst hout2
  subst hst1
  subst hst2
  simp only at hne hdom ⊢
  have hsnap2 : writeSnapshots
      ⟨some (writeFinalContent filename st0.content a ts1 sys usr),
       writeSnapshots st0 (writeFinalContent filename st0.content a ts1 sys usr) sn1⟩
      (writeFinalContent filename
        (some (writeFinalContent filename st0.content a ts1 sys usr)) b ts2 sys usr) sn2
      = writeSnapshots st0 (writeFinalContent filename st0.content a ts1 sys usr) sn1
        ++ [(sn2 ++ str ".md", writeFinalContent filename st0.content a ts1 sys usr)] := by
    unfold writeSnapshots
    simp only
    rw [if_pos]
    intro h
    exact hne (h ▸ rfl)
  refine ⟨hsnap2, ?_⟩
  rw [hsnap2]
  rw [undoFile_last _ _ _ _ _ hdom (strEndsWith_append sn2 (str ".md"))]
  exact ⟨_, rfl, rfl⟩

/-- C5 witness: an initially absent `a.txt` written with `X` then `Y`;
the second write snapshots `X`, and undo restores and returns `X`. -/
theorem write_twice_then_undo_witness :
    (⟨some (str "Y"), [(str "s2" ++ str ".md", str "X")]⟩ : DocState).snapshots
      = ([] : List (Str × Str)) ++ [(str "s2" ++ str ".md", str "X")]
    ∧ ∃ st3, undoFile ⟨some (str "Y"), [(str "s2" ++ str ".md", str "X")]⟩ (str "r")
        = .ok (st3, str "X") ∧ st3.content = some (str "X") := by
  exact write_twice_then_undo (str "a.txt") (str "X") (str "Y") (str "t1") (str "t2")
    (str "s1") (str "s2") (str "r") ⟨none, []⟩ ⟨some (str "X"), []⟩
    ⟨some (str "Y"), [(str "s2" ++ str ".md", str "X")]⟩ (str "X") (str "Y") [] []
    (by decide) (by decide) (by decide)
    (by intro nm h; simp at h)

/-- C6: writing a document whose final (possibly front-matter-augmented)
content is identical to the currently stored content creates no snapshot:
the snapshot folder is unchanged. -/
theorem write_identical_preserves_snapshots
    (filename input ts sn p : Str) (st : DocState)
    (sys usr : List (Str × YScalar))
    (hprev : st.content = some p)
    (heq : (writeFile filename st input ts sn sys usr).2 = p) :
    (writeFile filename st input ts sn sys usr).1.snapshots = st.snapshots := by
  simp only [writeFile] at heq ⊢
  rw [hprev] at heq
  simp [writeSnapshots, hprev, heq]

/-- C6 witness: rewriting `a.txt` with its stored content `X` leaves the
snapshot folder untouched. -/
theorem write_identical_preserves_snapshots_witness :
    (writeFile (str "a.txt") ⟨some (str "X"), [(str "old.md", str "W")]⟩
      (str "X") (str "t") (str "s") [] []).1.snapshots
      = [(str "old.md", str "W")] := by
  exact write_identical_preserves_snapshots (str "a.txt") (str "X") (str "t") (str "s")
    (str "X") ⟨some (str "X"), [(str "old.md", str "W")]⟩ [] [] (by decide) (by decide)

/-! ### SearchIndexer (extensions.js): data model and operations

The SQLite tables are modelled as lists: `files` rows with an `id`
assigned from `nextId` (AUTOINCREMENT), and the `files_fts` full-text
table as rows keyed by `rowid`.  Statements translate row by row:
`DELETE ... RETURNING id` with `.get()` removes every matching row and
reports the first, FTS upserts are delete-then-insert as in the source. -/

/-- The text-extension allow-list (`TEXT_EXTENSIONS` in extensions.js). -/
def TEXT_EXTENSIONS : List Str :=
  [str ".md", str ".txt", str ".json", str ".js", str ".py", str ".sql",
   str ".html", str ".css", str ".yaml", str ".yml", str ".sh", str ".bash",
   str ".xml", str ".csv"]

/-- One row of the `files` table. -/
structure FileRecord where
  id : Nat
  path : Str
  filename : Str
  extension : Str
  size : Nat
  modifiedAt : Nat
  indexedAt : Nat
  frontMatter : Str
  deriving DecidableEq, Repr

/-- One row of the `files_fts` full-text table. -/
structure FtsEntry where
  rowid : Nat
  filename : Str
  content : Str
  frontMatter : Str
  deriving DecidableEq, Repr

/-- The open search database. -/
structure SearchDB where
  files : List FileRecord
  fts : List FtsEntry
  nextId : Nat
  deriving DecidableEq, Repr

/-- Escape one character for a JSON string literal. -/
def jsonEscChar (c : Char) : Str :=
  if c = '"' then ['\\', '"']
  else if c = '\\' then ['\\', '\\']
  else if c = '\n' then ['\\', 'n']
  else [c]

/-- Escape a JSON string body. -/
def jsonEsc : Str → Str
  | [] => []
  | c :: rest => jsonEscChar c ++ jsonEsc rest

/-- JSON rendering of a scalar of the yaml fragment. -/
def jsonScalar : YScalar → Str
  | .str s => '"' :: (jsonEsc s ++ ['"'])
  | .int n => intRepr n
  | .bool true => str "true"
  | .bool false => str "false"
  | .null => str "null"

/-- Model of `JSON.stringify(parsed, null, 2)` on the fragment's flat
mappings (the SearchIndexer stores this text in the `front_matter`
column; nothing proved below depends on its exact shape). -/
def jsonStringify (kvs : List (Str × YScalar)) : Str :=
  match kvs with
  | [] => ['\x7b', '\x7d']
  | _ =>
    ['\x7b', '\n']
      ++ List.intercalate (str ",\n")
        (kvs.map (fun kv =>
          str "  " ++ '"' :: jsonEsc kv.1 ++ ['"'] ++ str ": " ++ jsonScalar kv.2))
      ++ ['\n', '\x7d']

/-- Model of `SearchIndexer.parseFrontMatter(content, ext)` from
extensions.js: non-note extensions pass through; otherwise the same fence
regex as the file manager splits the document, and the front-matter text
is the JSON rendering of the parsed mapping when yaml parsing yields an
object, else the raw block. -/
def siParseFrontMatter (content : Str) (ext : Str) : Str × Str :=
  if ext ≠ str ".md" then ([], content)
  else
    let trimmed := stripBOM content
    if ¬ strStartsWith trimmed (str "---") then ([], content)
    else
      match fmMatchBody (trimmed.drop 3) with
      | none => ([], content)
      | some (raw, body) =>
        let fmText :=
          match yamlLoad raw with
          | some (.map m) => jsonStringify m
          | _ => raw
        (fmText, body)

/-- A file as the indexer sees it: workspace-relative path, basename,
size, mtime and content (read errors make `indexFile` return before any
database mutation, so they are not modelled). -/
structure FsFile where
  rel : Str
  name : Str
  size : Nat
  mtime : Nat
  content : Str
  deriving DecidableEq, Repr

/-- Eligibility gate of `indexFile`: recognized lowercase extension and
size at most 1 MiB (the source skips on `size > 1024 * 1024`). -/
def eligibleFile (f : FsFile) : Bool :=
  TEXT_EXTENSIONS.contains (strLower (extnameOf f.name)) && !(f.size > 1024 * 1024)

/-- The `ON CONFLICT(path) DO UPDATE` row function of `indexFile`: the
matching row keeps its id and takes the new column values. -/
def updRecord (f : FsFile) (now : Nat) (q : FileRecord) : FileRecord :=
  if q.path = f.rel then
    { q with
      filename := f.name, extension := strLower (extnameOf f.name), size := f.size,
      modifiedAt := f.mtime, indexedAt := now,
      frontMatter := (siParseFrontMatter f.content (strLower (extnameOf f.name))).1 }
  else q

/-- Model of `SearchIndexer.indexFile`: skip ineligible files, upsert the
document record keyed by relative path (update keeps the existing id, a
fresh record takes `nextId`), then delete-and-insert the full-text row
under that id. -/
def indexFile (db : SearchDB) (f : FsFile) (now : Nat) : SearchDB :=
  let ext := strLower (extnameOf f.name)
  if ¬ TEXT_EXTENSIONS.contains ext then db
  else if f.size > 1024 * 1024 then db
  else
    let pr := siParseFrontMatter f.content ext
    match db.files.find? (fun r => r.path = f.rel) with
    | some r =>
      { db with
        files := db.files.map (updRecord f now),
        fts := (db.fts.filter (fun e => e.rowid ≠ r.id)) ++ [⟨r.id, f.name, pr.2, pr.1⟩] }
    | none =>
      { files := db.files ++ [⟨db.nextId, f.rel, f.name, ext, f.size, f.mtime, now, pr.1⟩],
        fts := (db.fts.filter (fun e => e.rowid ≠ db.nextId)) ++ [⟨db.nextId, f.name, pr.2, pr.1⟩],
        nextId := db.nextId + 1 }

/-- Model of `SearchIndexer.removeFile`: delete the document record by
relative path and, when a row was deleted, the full-text row under its
id; a no-op when the path was never indexed. -/
def removeFile (db : SearchDB) (rel : Str) : SearchDB :=
  match db.files.find? (fun r => r.path = rel) with
  | some r =>
    { db with
      files := db.files.filter (fun q => q.path ≠ rel),
      fts := db.fts.filter (fun e => e.rowid ≠ r.id) }
  | none => { db with files := db.files.filter (fun q => q.path ≠ rel) }

/-- The index effect of `deleteFile` in file-manager.js: whether the
deleted target was a file or a directory, `removeFile` is invoked exactly
once with the deleted path. -/
def deleteFileIndex (db : SearchDB) (rel : Str) : SearchDB := removeFile db rel

/-! ### Workspace tree and rebuildIndex -/

mutual
/-- A directory entry of the modelled workspace: a file with name, size,
mtime and content, or a named directory. -/
inductive FsEntry where
  | file : Str → Nat → Nat → Str → FsEntry
  | dir : Str → FsList → FsEntry
/-- A list of directory entries in readdir order. -/
inductive FsList where
  | nil : FsList
  | cons : FsEntry → FsList → FsList
end

mutual
/-- Files visited by `SearchIndexer.indexDirectory` below one entry:
hidden directories are pruned, files (hidden or not) are visited. -/
def codeWalkEntry (rel : Str) : FsEntry → List FsFile
  | .file n sz mt c => [⟨posixJoin rel n, n, sz, mt, c⟩]
  | .dir n es => if strStartsWith n ['.'] then [] else codeWalkList (posixJoin rel n) es
/-- Files visited by `SearchIndexer.indexDirectory` in a directory. -/
def codeWalkList (rel : Str) : FsList → List FsFile
  | .nil => []
  | .cons e rest => codeWalkEntry rel e ++ codeWalkList rel rest
end

/-- Fold `indexFile` over a list of files (the indexing loop). -/
def indexFiles (db : SearchDB) (fs : List FsFile) (now : Nat) : SearchDB :=
  fs.foldl (fun d f => indexFile d f now) db

/-- Model of `SearchIndexer.rebuildIndex`: clear both tables (the sqlite
sequence, modelled by `nextId`, is not reset by `DELETE`), then index
every file `indexDirectory` visits from the workspace root. -/
def rebuildIndex (db : SearchDB) (root : FsList) (now : Nat) : SearchDB :=
  indexFiles { db with files := [], fts := [] } (codeWalkList [] root) now

/-- A persisted database as `initialize`/`createTables` finds it: existing
rows plus whether the full-text table already has the `front_matter`
column (the `files` table's missing column is added by `ALTER TABLE`,
which keeps its rows and is already reflected in the row model). -/
structure PersistedDB where
  files : List FileRecord
  fts : List FtsEntry
  ftsHasFrontMatterCol : Bool
  nextId : Nat
  deriving DecidableEq, Repr

/-- Model of `createTables`: an incompatible full-text table is dropped
and recreated empty while document records are preserved. -/
def createTables (p : PersistedDB) : SearchDB :=
  if p.ftsHasFrontMatterCol then ⟨p.files, p.fts, p.nextId⟩
  else ⟨p.files, [], p.nextId⟩

/-- Model of `SearchIndexer.initialize`: open fresh (empty tables,
sequence starting at 1) or upgrade a persisted database in place. -/
def initializeDB (prior : Option PersistedDB) : SearchDB :=
  match prior with
  | none => ⟨[], [], 1⟩
  | some p => createTables p

/-! ### search -/

/-- FTS5 unicode61 token characters (alphanumeric; the porter stemmer of
the source's tokenizer is not modelled — no claim depends on stemming). -/
def isTokenChar (c : Char) : Bool := c.isAlphanum

/-- Tokenizer accumulator: split into maximal alphanumeric runs,
lowercased. -/
def tokenizeGo : Str → Str → List Str
  | [], cur => if cur.isEmpty then [] else [strLower cur.reverse]
  | c :: rest, cur =>
    if isTokenChar c then tokenizeGo rest (c :: cur)
    else if cur.isEmpty then tokenizeGo rest []
    else strLower cur.reverse :: tokenizeGo rest []

/-- Tokenize a field the way the unicode61 tokenizer segments it. -/
def tokenize (s : Str) : List Str := tokenizeGo s []

/-- Split on whitespace runs (JS `trim().split(/\s+/)` on a nonempty
trimmed string). -/
def tokenizeWsGo : Str → Str → List Str
  | [], cur => if cur.isEmpty then [] else [cur.reverse]
  | c :: rest, cur =>
    if isJsWs c then
      if cur.isEmpty then tokenizeWsGo rest []
      else cur.reverse :: tokenizeWsGo rest []
    else tokenizeWsGo rest (c :: cur)

/-- Whitespace-run splitting of a query. -/
def tokenizeWs (q : Str) : List Str := tokenizeWsGo (jsTrim q) []

/-- The FTS query string built by `search`: each whitespace-separated
term quoted with a prefix star, joined with OR. -/
def ftsQueryString (q : Str) : Str :=
  List.intercalate (str " OR ")
    (((tokenizeWs q)).map (fun t => '"' :: t ++ ['"', '*']))

/-- Scan a delimited FTS string after its opening quote, undoing the
doubled-delimiter escape. -/
def scanDelim (d : Char) : Str → Option (Str × Str)
  | [] => none
  | c :: rest =>
    if c = d then
      match rest with
      | c2 :: rest2 =>
        if c2 = d then (scanDelim d rest2).map (fun p => (d :: p.1, p.2))
        else some ([], rest)
      | [] => some ([], [])
    else (scanDelim d rest).map (fun p => (c :: p.1, p.2))

/-- Parser for the exact query shapes `search` builds: a nonempty
OR-list of quoted prefix phrases.  Anything else is an FTS5 syntax error
(the source catches it and falls back). -/
def ftsParseSeq : Nat → Str → Option (List Str)
  | 0, _ => none
  | fuel + 1, s =>
    match s with
    | '"' :: rest =>
      match scanDelim '"' rest with
      | none => none
      | some (content, rest2) =>
        match rest2 with
        | '*' :: rest3 =>
          if rest3.isEmpty then some [content]
          else if strStartsWith rest3 (str " OR ") then
            (ftsParseSeq fuel (rest3.drop 4)).map (fun ps => content :: ps)
          else none
        | _ => none
    | _ => none

/-- Parse an FTS query string (fuel covers the string's length). -/
def ftsParse (qs : Str) : Option (List Str) := ftsParseSeq (qs.length + 1) qs

/-- Phrase-with-trailing-prefix match anchored at the head of a token
list (`"a b c"*`: exact tokens then a prefix of the last). -/
def phrasePrefixAt : List Str → List Str → Bool
  | [], _ => true
  | [p], t :: _ => strStartsWith t p
  | _ :: _, [] => false
  | p :: ps, t :: ts => (t = p) && phrasePrefixAt ps ts

/-- Phrase match anywhere in a token list. -/
def anyWindow (ph : List Str) : List Str → Bool
  | [] => false
  | t :: ts => phrasePrefixAt ph (t :: ts) || anyWindow ph ts

/-- All indexed tokens of one full-text row (every column matches). -/
def docTokens (e : FtsEntry) : List Str :=
  tokenize e.filename ++ tokenize e.content ++ tokenize e.frontMatter

/-- One row returned by `search`. -/
structure SearchResult where
  path : Str
  filename : Str
  snippet : Str
  rank : Int
  deriving DecidableEq, Repr

/-- The FTS query path of `search` (the body of its try block): parse the
built query, match rows, join to `files` on rowid = id.  `none` is the
thrown SQL error.  The bm25 rank is modelled as a constant and SQLite's
`snippet()` as the row's content — no claim depends on either. -/
def ftsRun (db : SearchDB) (q : Str) (limit : Nat) : Option (List SearchResult) :=
  match ftsParse (ftsQueryString q) with
  | none => none
  | some phrases =>
    let phToks := phrases.map tokenize
    if phToks.any (fun p => p.isEmpty) then none
    else
      some ((db.fts.filterMap (fun e =>
        if phToks.any (fun ph => anyWindow ph (docTokens e)) then
          match db.files.find? (fun r => r.id = e.rowid) with
          | some r => some ⟨r.path, r.filename, e.content, 0⟩
          | none => none
        else none)).take limit)

/-- SQL LIKE with `%`/`_` wildcards, ASCII case-insensitive, by fuel. -/
def likeMatchF : Nat → Str → Str → Bool
  | 0, _, _ => false
  | fuel + 1, pat, s =>
    match pat with
    | [] => s.isEmpty
    | '%' :: ps =>
      likeMatchF fuel ps s
        || (match s with
            | [] => false
            | _ :: s2 => likeMatchF fuel ('%' :: ps) s2)
    | '_' :: ps =>
      (match s with
       | [] => false
       | _ :: s2 => likeMatchF fuel ps s2)
    | c :: ps =>
      (match s with
       | [] => false
       | c2 :: s2 => (c.toLower = c2.toLower) && likeMatchF fuel ps s2)

/-- SQL `s LIKE pat`. -/
def sqlLike (pat s : Str) : Bool := likeMatchF (pat.length + s.length + 1) pat s

/-- The catch-branch of `search`: substring match of the raw query over
filename and path with empty snippet and rank 0. -/
def likeFallback (db : SearchDB) (q : Str) (limit : Nat) : List SearchResult :=
  ((db.files.filter (fun r =>
      sqlLike ('%' :: q ++ ['%']) r.filename || sqlLike ('%' :: q ++ ['%']) r.path)).map
    (fun r => ⟨r.path, r.filename, [], 0⟩)).take limit

/-- Model of `SearchIndexer.search`: empty or whitespace-only queries
return no rows; an FTS failure falls back to the LIKE query. -/
def search (db : SearchDB) (q : Str) (limit : Nat) : List SearchResult :=
  if (jsTrim q).isEmpty then []
  else
    match ftsRun db q limit with
    | some rows => rows
    | none => likeFallback db q limit

/-- C7: search never raises.  Empty or whitespace-only queries return the
empty list before the FTS query is attempted, and a failing FTS execution
(modelled by `ftsRun` returning `none`, as a thrown SQL error) makes
`search` return the LIKE fallback rows instead of propagating the
error. -/
theorem search_empty_and_fallback :
    (∀ (db : SearchDB) (q : Str) (limit : Nat),
      (jsTrim q).isEmpty = true → search db q limit = [])
    ∧ (∀ (db : SearchDB) (q : Str) (limit : Nat),
      (jsTrim q).isEmpty = false → ftsRun db q limit = none →
        search db q limit = likeFallback db q limit) := by
  constructor
  · intro db q limit h
    simp [search, h]
  · intro db q limit h hf
    simp [search, h, hf]

/-- Demonstration database for C7. -/
def dbC7 : SearchDB :=
  ⟨[⟨1, str "d/a.md", str "a.md", str ".md", 5, 0, 0, []⟩],
   [⟨1, str "a.md", str "uniqueword here", []⟩], 2⟩

/-- C7 witness: a whitespace-only query returns no rows, and the
malformed query `a"b` (an unterminated FTS string) falls back to the
LIKE query. -/
theorem search_empty_and_fallback_witness :
    search dbC7 (str "   ") 20 = []
    ∧ search dbC7 (str "a\"b") 20 = likeFallback dbC7 (str "a\"b") 20 := by
  constructor
  · exact search_empty_and_fallback.1 dbC7 (str "   ") 20 (by decide)
  · exact search_empty_and_fallback.2 dbC7 (str "a\"b") 20 (by decide) (by decide)

/-! ### The id/rowid lifecycle invariant (C4) -/

/-- The ids of the document table. -/
def idsOf (db : SearchDB) : List Nat := db.files.map (fun r => r.id)

/-- The rowids of the full-text table. -/
def rowidsOf (db : SearchDB) : List Nat := db.fts.map (fun e => e.rowid)

/-- The claimed invariant: the set of document ids equals the set of
full-text rowids. -/
def SameIds (db : SearchDB) : Prop := ∀ i : Nat, i ∈ idsOf db ↔ i ∈ rowidsOf db

/-- Database well-formedness maintained by SQLite itself: the UNIQUE
constraint on `path` and primary-key uniqueness of `id`. -/
def DBWf (db : SearchDB) : Prop :=
  (db.files.map (fun r => r.path)).Nodup ∧ (idsOf db).Nodup

theorem updRecord_id (f : FsFile) (now : Nat) (q : FileRecord) :
    (updRecord f now q).id = q.id := by
  unfold updRecord
  split <;> rfl

/-- Pure-list form of the invariant step for the update branch of the
upsert: mapping an id-preserving function over the rows and replacing the
full-text row of an id already present keeps the id/rowid sets equal. -/
theorem sameIds_upsert_found (files : List FileRecord) (fts : List FtsEntry) (rid : Nat)
    (g : FileRecord → FileRecord) (hg : ∀ q, (g q).id = q.id)
    (e : FtsEntry) (he : e.rowid = rid)
    (hs : ∀ i, i ∈ files.map (fun r => r.id) ↔ i ∈ fts.map (fun x => x.rowid))
    (hrid : rid ∈ files.map (fun r => r.id)) :
    ∀ i, i ∈ (files.map g).map (fun r => r.id)
      ↔ i ∈ (fts.filter (fun x => x.rowid ≠ rid) ++ [e]).map (fun x => x.rowid) := by
  intro i
  rw [List.map_append, List.mem_append]
  constructor
  · intro hi
    obtain ⟨q, hq, hqi⟩ := List.mem_map.mp hi
    obtain ⟨q0, hq0, hq0e⟩ := List.mem_map.mp hq
    subst hq0e
    rw [hg q0] at hqi
    by_cases hir : i = rid
    · right
      exact List.mem_map.mpr ⟨e, List.mem_singleton.mpr rfl, by rw [he, hir]⟩
    · left
      have hif : i ∈ fts.map (fun x => x.rowid) := (hs i).mp (List.mem_map.mpr ⟨q0, hq0, hqi⟩)
      obtain ⟨x, hx, hxi⟩ := List.mem_map.mp hif
      refine List.mem_map.mpr ⟨x, List.mem_filter.mpr ⟨hx, ?_⟩, hxi⟩
      simp only [decide_eq_true_eq]
      rw [hxi]
      exact hir
  · intro hi
    have hifl : i ∈ files.map (fun r => r.id) := by
      rcases hi with hi | hi
      · obtain ⟨x, hx, hxi⟩ := List.mem_map.mp hi
        exact (hs i).mpr (List.mem_map.mpr ⟨x, (List.mem_filter.mp hx).1, hxi⟩)
      · obtain ⟨x, hx, hxi⟩ := List.mem_map.mp hi
        rw [List.mem_singleton.mp hx] at hxi
        rw [← hxi, he]
        exact hrid
    obtain ⟨q, hq, hqi⟩ := List.mem_map.mp hifl
    exact List.mem_map.mpr ⟨g q, List.mem_map_of_mem g hq, by rw [hg q]; exact hqi⟩

/-- Pure-list form of the invariant step for the insert branch of the
upsert: appending a fresh row and its full-text row extends both id sets
by the same id. -/
theorem sameIds_upsert_new (files : List FileRecord) (fts : List FtsEntry) (nid : Nat)
    (r : FileRecord) (hr : r.id = nid) (e : FtsEntry) (he : e.rowid = nid)
    (hs : ∀ i, i ∈ files.map (fun q => q.id) ↔ i ∈ fts.map (fun x => x.rowid)) :
    ∀ i, i ∈ (files ++ [r]).map (fun q => q.id)
      ↔ i ∈ (fts.filter (fun x => x.rowid ≠ nid) ++ [e]).map (fun x => x.rowid) := by
  intro i
  rw [List.map_append, List.mem_append, List.map_append, List.mem_append]
  constructor
  · rintro (hi | hi)
    · by_cases hir : i = nid
      · right
        exact List.mem_map.mpr ⟨e, List.mem_singleton.mpr rfl, by rw [he, hir]⟩
      · left
        have hif := (hs i).mp hi
        obtain ⟨x, hx, hxi⟩ := List.mem_map.mp hif
        refine List.mem_map.mpr ⟨x, List.mem_filter.mpr ⟨hx, ?_⟩, hxi⟩
        simp only [decide_eq_true_eq]
        rw [hxi]
        exact hir
    · obtain ⟨q, hq, hqi⟩ := List.mem_map.mp hi
      rw [List.mem_singleton.mp hq] at hqi
      right
      exact List.mem_map.mpr ⟨e, List.mem_singleton.mpr rfl, by rw [he, ← hr]; exact hqi⟩
  · rintro (hi | hi)
    · obtain ⟨x, hx, hxi⟩ := List.mem_map.mp hi
      left
      exact (hs i).mpr (List.mem_map.mpr ⟨x, (List.mem_filter.mp hx).1, hxi⟩)
    · obtain ⟨x, hx, hxi⟩ := List.mem_map.mp hi
      rw [List.mem_singleton.mp hx] at hxi
      right
      exact List.mem_map.mpr ⟨r, List.mem_singleton.mpr rfl, by rw [hr, ← he]; exact hxi⟩

theorem indexFile_sameIds (db : SearchDB) (f : FsFile) (now : Nat)
    (hs : SameIds db) : SameIds (indexFile db f now) := by
  simp only [indexFile]
  split
  · exact hs
  · split
    · exact hs
    · split
      · rename_i r hfind
        have hmem : r ∈ db.files := List.mem_of_find?_eq_some hfind
        have hrid : r.id ∈ db.files.map (fun q => q.id) :=
          List.mem_map_of_mem (fun q => q.id) hmem
        exact sameIds_upsert_found db.files db.fts r.id (updRecord f now)
          (updRecord_id f now) _ rfl hs hrid
      · exact sameIds_upsert_new db.files db.fts db.nextId _ rfl _ rfl hs

theorem indexFiles_sameIds (fs : List FsFile) :
    ∀ (db : SearchDB) (now : Nat), SameIds db → SameIds (indexFiles db fs now) := by
  induction fs with
  | nil => intro db now hs; exact hs
  | cons f fs ih =>
    intro db now hs
    exact ih (indexFile db f now) now (indexFile_sameIds db f now hs)

theorem removeFile_sameIds (db : SearchDB) (rel : Str)
    (hwf : DBWf db) (hs : SameIds db) : SameIds (removeFile db rel) := by
  have hpinj := List.inj_on_of_nodup_map hwf.1
  have hiinj := List.inj_on_of_nodup_map hwf.2
  unfold removeFile
  split
  · rename_i r hfind
    have hmem : r ∈ db.files := List.mem_of_find?_eq_some hfind
    have hrp : r.path = rel := by
      have h2 := List.find?_some hfind
      simpa using h2
    intro i
    constructor
    · intro hi
      obtain ⟨q, hq, hqi⟩ := List.mem_map.mp hi
      have hqf := List.mem_filter.mp hq
      have hqrel : ¬ (q.path = rel) := by
        have h2 := hqf.2
        simp only [decide_eq_true_eq] at h2
        exact h2
      have hine : i ≠ r.id := by
        intro h
        have hqr : q = r := hiinj hqf.1 hmem (by rw [hqi]; exact h)
        exact hqrel (by rw [hqr, hrp])
      have hif : i ∈ db.fts.map (fun x => x.rowid) :=
        (hs i).mp (List.mem_map.mpr ⟨q, hqf.1, hqi⟩)
      obtain ⟨x, hx, hxi⟩ := List.mem_map.mp hif
      refine List.mem_map.mpr ⟨x, List.mem_filter.mpr ⟨hx, ?_⟩, hxi⟩
      simp only [decide_eq_true_eq]
      rw [hxi]
      exact hine
    · intro hi
      obtain ⟨x, hx, hxi⟩ := List.mem_map.mp hi
      have hxf := List.mem_filter.mp hx
      have hxne : ¬ (x.rowid = r.id) := by
        have h2 := hxf.2
        simp only [decide_eq_true_eq] at h2
        exact h2
      have hifl : i ∈ db.files.map (fun q => q.id) :=
        (hs i).mpr (List.mem_map.mpr ⟨x, hxf.1, hxi⟩)
      obtain ⟨q, hq, hqi⟩ := List.mem_map.mp hifl
      refine List.mem_map.mpr ⟨q, List.mem_filter.mpr ⟨hq, ?_⟩, hqi⟩
      simp only [decide_eq_true_eq]
      intro hqrel
      have hqr : q = r := hpinj hq hmem (by rw [hqrel, hrp])
      exact hxne (by rw [hxi, ← hqi, hqr])
  · rename_i hfind
    have hfe : db.files.filter (fun q => q.path ≠ rel) = db.files := by
      rw [List.filter_eq_self]
      intro q hq
      have h2 := List.find?_eq_none.mp hfind q hq
      simp only [decide_eq_true_eq] at h2 ⊢
      exact h2
    intro i
    simp only [idsOf, rowidsOf, hfe]
    exact hs i

theorem sameIds_cleared (db : SearchDB) :
    SameIds { db with files := [], fts := [] } := by
  intro i
  simp [idsOf, rowidsOf]

/-- C4 (amended): `indexFile`, `removeFile` (under the table constraints
SQLite maintains) and `rebuildIndex` preserve the id/rowid set equality,
and `initialize` preserves it for a fresh database and for a persisted
database whose full-text table already has the `front_matter` column.
The remaining `initialize` path — the schema upgrade — is the exception
recorded by the counterexample. -/
theorem searchIndexer_fts_lifecycle :
    (∀ (db : SearchDB) (f : FsFile) (now : Nat),
      SameIds db → SameIds (indexFile db f now))
    ∧ (∀ (db : SearchDB) (rel : Str),
      DBWf db → SameIds db → SameIds (removeFile db rel))
    ∧ (∀ (db : SearchDB) (root : FsList) (now : Nat),
      SameIds (rebuildIndex db root now))
    ∧ SameIds (initializeDB none)
    ∧ (∀ p : PersistedDB, p.ftsHasFrontMatterCol = true →
        SameIds ⟨p.files, p.fts, p.nextId⟩ → SameIds (initializeDB (some p))) := by
  refine ⟨indexFile_sameIds, removeFile_sameIds, ?_, ?_, ?_⟩
  · intro db root now
    exact indexFiles_sameIds _ _ now (sameIds_cleared db)
  · intro i
    simp [initializeDB, idsOf, rowidsOf]
  · intro p hcol hp
    show SameIds (createTables p)
    unfold createTables
    rw [if_pos hcol]
    exact hp

/-- C4 counterexample: on a persisted database whose full-text table
lacks the `front_matter` column, `initialize` drops and recreates the
full-text table empty while keeping the document record, so id 1 has a
document record but no longer a full-text row — the claimed invariant is
not preserved by this operation. -/
theorem initialize_upgrade_breaks_fts_link :
    ¬ SameIds (initializeDB (some
      ⟨[⟨1, str "a.md", str "a.md", str ".md", 1, 0, 0, []⟩],
       [⟨1, str "a.md", str "x", []⟩], false, 2⟩)) := by
  intro h
  exact absurd ((h 1).mp (by decide)) (by decide)

/-- Demonstration database for the C4 witness. -/
def dbC4 : SearchDB :=
  ⟨[⟨1, str "a.md", str "a.md", str ".md", 3, 0, 0, []⟩],
   [⟨1, str "a.md", str "hello", []⟩], 2⟩

/-- C4 witness: the preserved invariant at concrete inputs, through an
insert-path `indexFile` and a `removeFile` of the only record. -/
theorem searchIndexer_fts_lifecycle_witness :
    SameIds (indexFile ⟨[], [], 1⟩ ⟨str "a.md", str "a.md", 3, 0, str "hi"⟩ 0)
    ∧ SameIds (removeFile dbC4 (str "a.md")) := by
  constructor
  · exact searchIndexer_fts_lifecycle.1 ⟨[], [], 1⟩ ⟨str "a.md", str "a.md", 3, 0, str "hi"⟩ 0
      (fun i => Iff.rfl)
  · exact searchIndexer_fts_lifecycle.2.1 dbC4 (str "a.md") ⟨by decide, by decide⟩
      (fun i => Iff.rfl)

theorem removeFile_files_eq (db : SearchDB) (p : Str) :
    (removeFile db p).files = db.files.filter (fun q => q.path ≠ p) := by
  unfold removeFile
  split <;> rfl

/-- C2 (amended): deleting path `p` removes exactly the document record
whose path equals `p` together with its full-text row and keeps every
other record; when no record has path `p` — as for a directory, whose
children are stored under longer paths — the index is left unchanged. -/
theorem deleteFile_index_exact (db : SearchDB) (p : Str) (hwf : DBWf db) :
    (∀ q ∈ (deleteFileIndex db p).files, q.path ≠ p)
    ∧ (∀ q ∈ db.files, q.path ≠ p → q ∈ (deleteFileIndex db p).files)
    ∧ (∀ r ∈ db.files, r.path = p →
        ∀ e ∈ (deleteFileIndex db p).fts, e.rowid ≠ r.id)
    ∧ (p ∉ db.files.map (fun r => r.path) → deleteFileIndex db p = db) := by
  refine ⟨?_, ?_, ?_, ?_⟩
  · intro q hq
    rw [deleteFileIndex, removeFile_files_eq] at hq
    have h2 := (List.mem_filter.mp hq).2
    simpa using h2
  · intro q hq hne
    rw [deleteFileIndex, removeFile_files_eq]
    exact List.mem_filter.mpr ⟨hq, by simpa using hne⟩
  · intro r hr hrp e he hrid
    rw [deleteFileIndex] at he
    unfold removeFile at he
    cases hfind : db.files.find? (fun q => q.path = p) with
    | none =>
      have h2 := List.find?_eq_none.mp hfind r hr
      simp [hrp] at h2
    | some r0 =>
      rw [hfind] at he
      have he2 : e ∈ db.fts.filter (fun x => x.rowid ≠ r0.id) := he
      have hr0mem : r0 ∈ db.files := List.mem_of_find?_eq_some hfind
      have hr0p : r0.path = p := by
        have h2 := List.find?_some hfind
        simpa using h2
      have hinj := List.inj_on_of_nodup_map hwf.1
      have hr0r : r0 = r := hinj hr0mem hr (by rw [hr0p, hrp])
      have hxne := (List.mem_filter.mp he2).2
      simp only [decide_eq_true_eq] at hxne
      exact hxne (by rw [hrid, hr0r])
  · intro hnp
    have hfind : db.files.find? (fun q => q.path = p) = none := by
      rw [List.find?_eq_none]
      intro q hq
      simp only [decide_eq_true_eq]
      intro h
      exact hnp (List.mem_map.mpr ⟨q, hq, h⟩)
    have hfe : db.files.filter (fun q => q.path ≠ p) = db.files := by
      rw [List.filter_eq_self]
      intro q hq
      simp only [decide_eq_true_eq]
      intro h
      exact hnp (List.mem_map.mpr ⟨q, hq, h⟩)
    rw [deleteFileIndex]
    unfold removeFile
    rw [hfind]
    show SearchDB.mk (db.files.filter (fun q => q.path ≠ p)) db.fts db.nextId = db
    rw [hfe]

/-- Demonstration database for C2: one indexed file under directory `d`. -/
def dbC2 : SearchDB :=
  ⟨[⟨1, str "d/a.md", str "a.md", str ".md", 5, 0, 0, []⟩],
   [⟨1, str "a.md", str "uniqueword here", []⟩], 2⟩

/-- C2 counterexample: deleting directory `d` leaves the record and
full-text entry of `d/a.md` in place — `deleteFile` calls `removeFile`
once with the directory path, which matches no record — and a search for
a term unique to that file still returns it. -/
theorem delete_directory_keeps_children :
    deleteFileIndex dbC2 (str "d") = dbC2
    ∧ dbC2.files.map (fun r => r.path) = [str "d/a.md"]
    ∧ (search (deleteFileIndex dbC2 (str "d")) (str "uniqueword") 20).map (fun r => r.path)
        = [str "d/a.md"] := by
  exact ⟨by decide, by decide, by decide⟩

/-- C2 witness: deleting the file path `d/a.md` itself removes its record
and its full-text entry, with the database constraints discharged
concretely. -/
theorem deleteFile_index_exact_witness :
    (∀ q ∈ (deleteFileIndex dbC2 (str "d/a.md")).files, q.path ≠ str "d/a.md")
    ∧ (∀ q ∈ dbC2.files, q.path ≠ str "d/a.md" →
        q ∈ (deleteFileIndex dbC2 (str "d/a.md")).files)
    ∧ (∀ r ∈ dbC2.files, r.path = str "d/a.md" →
        ∀ e ∈ (deleteFileIndex dbC2 (str "d/a.md")).fts, e.rowid ≠ r.id)
    ∧ (str "d/a.md" ∉ dbC2.files.map (fun r => r.path) →
        deleteFileIndex dbC2 (str "d/a.md") = dbC2) :=
  deleteFile_index_exact dbC2 (str "d/a.md") ⟨by decide, by decide⟩

/-! ### C3: what rebuildIndex actually indexes -/

mutual
/-- Every file below one entry, each tagged with whether some ancestor
directory on the way (the entry itself included when it is a directory)
is hidden. -/
def allFilesEntry (rel : Str) (anc : Bool) : FsEntry → List (FsFile × Bool)
  | .file n sz mt c => [(⟨posixJoin rel n, n, sz, mt, c⟩, anc)]
  | .dir n es => allFilesList (posixJoin rel n) (anc || strStartsWith n ['.']) es
/-- Every file in a directory list with hidden-ancestor tags. -/
def allFilesList (rel : Str) (anc : Bool) : FsList → List (FsFile × Bool)
  | .nil => []
  | .cons e rest => allFilesEntry rel anc e ++ allFilesList rel anc rest
end

mutual
theorem allFilesEntry_flagged (rel : Str) (e : FsEntry) :
    ∀ q ∈ allFilesEntry rel true e, q.2 = true := by
  cases e with
  | file n sz mt c =>
    intro q hq
    simp only [allFilesEntry, List.mem_singleton] at hq
    rw [hq]
  | dir n es =>
    intro q hq
    simp only [allFilesEntry, Bool.true_or] at hq
    exact allFilesList_flagged (posixJoin rel n) es q hq
theorem allFilesList_flagged (rel : Str) (l : FsList) :
    ∀ q ∈ allFilesList rel true l, q.2 = true := by
  cases l with
  | nil => intro q hq; simp [allFilesList] at hq
  | cons e rest =>
    intro q hq
    simp only [allFilesList, List.mem_append] at hq
    rcases hq with h | h
    · exact allFilesEntry_flagged rel e q h
    · exact allFilesList_flagged rel rest q h
end

mutual
theorem codeWalkEntry_eq (rel : Str) (e : FsEntry) :
    codeWalkEntry rel e
      = ((allFilesEntry rel false e).filter (fun q => !q.2)).map Prod.fst := by
  cases e with
  | file n sz mt c => rfl
  | dir n es =>
    by_cases hh : strStartsWith n ['.'] = true
    · simp only [codeWalkEntry, allFilesEntry, hh, if_true, Bool.false_or]
      have hflag : ∀ q ∈ allFilesList (posixJoin rel n) true es, ¬ ((!q.2) = true) := by
        intro q hq
        rw [allFilesList_flagged (posixJoin rel n) es q hq]
        simp
      rw [List.filter_eq_nil_iff.mpr hflag]
      rfl
    · have hh2 : strStartsWith n ['.'] = false := by
        cases h : strStartsWith n ['.']
        · rfl
        · exact absurd h hh
      simp only [codeWalkEntry, allFilesEntry, hh2, if_false, Bool.false_or]
      exact codeWalkList_eq (posixJoin rel n) es
theorem codeWalkList_eq (rel : Str) (l : FsList) :
    codeWalkList rel l
      = ((allFilesList rel false l).filter (fun q => !q.2)).map Prod.fst := by
  cases l with
  | nil => rfl
  | cons e rest =>
    simp only [codeWalkList, allFilesList, List.filter_append, List.map_append]
    rw [codeWalkEntry_eq rel e, codeWalkList_eq rel rest]
end

theorem filter_over_map {α β : Type} (f : α → β) (p : β → Bool) (l : List α) :
    (l.map f).filter p = (l.filter (fun x => p (f x))).map f := by
  induction l with
  | nil => rfl
  | cons a l ih =>
    simp only [List.map_cons, List.filter_cons]
    by_cases h : p (f a) = true
    · simp [h, ih]
    · simp [h, ih]

theorem my_filter_filter {α : Type} (q r : α → Bool) (l : List α) :
    (l.filter q).filter r = l.filter (fun x => q x && r x) := by
  induction l with
  | nil => rfl
  | cons a l ih =>
    simp only [List.filter_cons]
    by_cases hq : q a = true
    · by_cases hr : r a = true
      · simp [hq, hr, ih]
      · simp [hq, hr, ih]
    · simp [hq, ih]

theorem indexFile_skip (db : SearchDB) (f : FsFile) (now : Nat)
    (h : eligibleFile f = false) : indexFile db f now = db := by
  simp only [indexFile]
  by_cases hc : TEXT_EXTENSIONS.contains (strLower (extnameOf f.name)) = true
  · by_cases hsz : f.size > 1024 * 1024
    · rw [if_neg (not_not_intro hc), if_pos hsz]
    · exfalso
      unfold eligibleFile at h
      rw [hc] at h
      simp [hsz] at h
  · rw [if_pos hc]

theorem indexFile_new_paths (db : SearchDB) (f : FsFile) (now : Nat)
    (he : eligibleFile f = true)
    (hnew : f.rel ∉ db.files.map (fun r => r.path)) :
    (indexFile db f now).files.map (fun r => r.path)
      = db.files.map (fun r => r.path) ++ [f.rel] := by
  have hc : TEXT_EXTENSIONS.contains (strLower (extnameOf f.name)) = true := by
    unfold eligibleFile at he
    exact (Bool.and_eq_true_iff.mp he).1
  have hsz : ¬ (f.size > 1024 * 1024) := by
    unfold eligibleFile at he
    have h2 := (Bool.and_eq_true_iff.mp he).2
    simpa using h2
  have hfind : db.files.find? (fun r => r.path = f.rel) = none := by
    rw [List.find?_eq_none]
    intro q hq
    simp only [decide_eq_true_eq]
    intro h
    exact hnew (List.mem_map.mpr ⟨q, hq, h⟩)
  simp only [indexFile, if_neg (not_not_intro hc), if_neg hsz, hfind]
  simp

theorem indexFiles_paths (fs : List FsFile) :
    ∀ (db : SearchDB) (now : Nat),
    (∀ f ∈ fs, eligibleFile f = true → f.rel ∉ db.files.map (fun r => r.path)) →
    ((fs.filter eligibleFile).map (fun f => f.rel)).Nodup →
    (indexFiles db fs now).files.map (fun r => r.path)
      = db.files.map (fun r => r.path) ++ (fs.filter eligibleFile).map (fun f => f.rel) := by
  induction fs with
  | nil => intro db now _ _; simp [indexFiles]
  | cons f fs ih =>
    intro db now hdisj hnd
    have hstep : indexFiles db (f :: fs) now = indexFiles (indexFile db f now) fs now := rfl
    by_cases he : eligibleFile f = true
    · have hnew : f.rel ∉ db.files.map (fun r => r.path) :=
        hdisj f (List.mem_cons_self f fs) he
      have hpaths := indexFile_new_paths db f now he hnew
      have hfc : (f :: fs).filter eligibleFile = f :: fs.filter eligibleFile := by
        simp [List.filter_cons, he]
      rw [hfc] at hnd ⊢
      rw [List.map_cons] at hnd
      have hfrel : f.rel ∉ (fs.filter eligibleFile).map (fun x => x.rel) :=
        (List.nodup_cons.mp hnd).1
      have hndtail : ((fs.filter eligibleFile).map (fun x => x.rel)).Nodup :=
        (List.nodup_cons.mp hnd).2
      have hdisj2 : ∀ g ∈ fs, eligibleFile g = true →
          g.rel ∉ (indexFile db f now).files.map (fun r => r.path) := by
        intro g hg hge
        rw [hpaths, List.mem_append]
        rintro (h | h)
        · exact hdisj g (List.mem_cons_of_mem f hg) hge h
        · have hgm : g.rel ∈ (fs.filter eligibleFile).map (fun x => x.rel) :=
            List.mem_map.mpr ⟨g, List.mem_filter.mpr ⟨hg, hge⟩, rfl⟩
          rw [List.mem_singleton] at h
          rw [h] at hgm
          exact hfrel hgm
      rw [hstep, ih (indexFile db f now) now hdisj2 hndtail, hpaths]
      simp
    · have hf : eligibleFile f = false := by
        cases hef : eligibleFile f
        · rfl
        · exact absurd hef he
      have hfc : (f :: fs).filter eligibleFile = fs.filter eligibleFile := by
        simp [List.filter_cons, hf]
      rw [hfc] at hnd ⊢
      rw [hstep, indexFile_skip db f now hf]
      exact ih db now (fun g hg hge => hdisj g (List.mem_cons_of_mem f hg) hge) hnd

/-- C3 (amended): after `rebuildIndex` the document records are exactly
the files not under any hidden DIRECTORY (the metadata directory
`.x0v3rt` starts with a dot and is thereby excluded) whose lowercase
extension is in the allow-list and whose size is at most 1 MiB; hidden
FILES with recognised extensions are indexed.  The hypothesis says
distinct files of the workspace have distinct relative paths, which a
real directory tree guarantees. -/
theorem rebuildIndex_records (db : SearchDB) (root : FsList) (now : Nat)
    (hnd : (((codeWalkList [] root).filter eligibleFile).map (fun f => f.rel)).Nodup) :
    (rebuildIndex db root now).files.map (fun r => r.path)
      = ((allFilesList [] false root).filter
          (fun q => !q.2 && eligibleFile q.1)).map (fun q => q.1.rel) := by
  have h1 : (rebuildIndex db root now).files.map (fun r => r.path)
      = ((codeWalkList [] root).filter eligibleFile).map (fun f => f.rel) := by
    have h0 := indexFiles_paths (codeWalkList [] root)
      { db with files := [], fts := [] } now (by intro f _ _; simp) hnd
    simpa [rebuildIndex] using h0
  rw [h1, codeWalkList_eq, filter_over_map, my_filter_filter, List.map_map]
  rfl

mutual
/-- Modelled from the spec's words for comparison with the code: the
claim's indexed set, produced by a walk that skips every hidden entry
(files included) and the metadata subtree. -/
def specFilesEntry (rel : Str) : FsEntry → List FsFile
  | .file n sz mt c =>
    if strStartsWith n ['.'] then [] else [⟨posixJoin rel n, n, sz, mt, c⟩]
  | .dir n es =>
    if strStartsWith n ['.'] || n = META_DIRNAME then []
    else specFilesList (posixJoin rel n) es
/-- Modelled from the spec's words: the claim's walk over a directory
list. -/
def specFilesList (rel : Str) : FsList → List FsFile
  | .nil => []
  | .cons e rest => specFilesEntry rel e ++ specFilesList rel rest
end

/-- The workspace of the C3 counterexample: one small hidden markdown
file at the root. -/
def treeC3 : FsList := .cons (.file (str ".h.md") 10 0 (str "body")) .nil

/-- C3 counterexample: `rebuildIndex` indexes the hidden file `.h.md` —
`indexDirectory` skips hidden directories only — while the claim's
characterisation (non-hidden files only) contains no file, so the
claimed equality of record set and non-hidden eligible files fails. -/
theorem rebuildIndex_indexes_hidden_files :
    (rebuildIndex ⟨[], [], 1⟩ treeC3 0).files.map (fun r => r.path) = [str ".h.md"]
    ∧ ((specFilesList [] treeC3).filter eligibleFile).map (fun f => f.rel) = []
    ∧ ¬ ((rebuildIndex ⟨[], [], 1⟩ treeC3 0).files.map (fun r => r.path)
        = ((specFilesList [] treeC3).filter eligibleFile).map (fun f => f.rel)) := by
  exact ⟨by decide, by decide, by decide⟩

/-- The workspace of the C3 witness: a hidden directory (pruned), a
visible directory with an eligible file, an over-sized file and an
unrecognised extension. -/
def treeC3w : FsList :=
  .cons (.dir (str ".git") (.cons (.file (str "a.md") 5 0 (str "x")) .nil))
    (.cons (.dir (str "d") (.cons (.file (str "b.md") 5 0 (str "hello")) .nil))
      (.cons (.file (str "big.md") 2000000 0 (str "z"))
        (.cons (.file (str "n.exe") 5 0 (str "w")) .nil)))

/-- C3 witness: the amended characterisation holds on a concrete
workspace. -/
theorem rebuildIndex_records_witness :
    (rebuildIndex ⟨[], [], 1⟩ treeC3w 0).files.map (fun r => r.path)
      = ((allFilesList [] false treeC3w).filter
          (fun q => !q.2 && eligibleFile q.1)).map (fun q => q.1.rel) :=
  rebuildIndex_records ⟨[], [], 1⟩ treeC3w 0 (by decide)

/-! ### C9: the debounced watcher -/

/-- Watcher state: the armed debounce timer's expiry time, if any, and
the number of rebuild-and-notify cycles the timer has fired. -/
structure WatcherState where
  pending : Option Nat
  rebuilds : Nat
  deriving DecidableEq, Repr

/-- Timer semantics at an observation instant: an armed timer whose
expiry has passed fires `buildIndex` once and disarms. -/
def fireIfDue (s : WatcherState) (now : Nat) : WatcherState :=
  match s.pending with
  | some d => if d ≤ now then { pending := none, rebuilds := s.rebuilds + 1 } else s
  | none => s

/-- Model of the `fs.watch` callback in `startWatcher`: falsy filenames
are ignored, events inside the metadata subtree are ignored, any other
event clears the armed timer (`clearTimeout`) and arms a new 250 ms one
(`setTimeout`).  Time is discrete; a due timer fires before the event is
processed. -/
def onWatchEvent (root : Str) (s : WatcherState) (t : Nat) (filename : Str) : WatcherState :=
  let s1 := fireIfDue s t
  if filename.isEmpty then s1
  else if isMetaPath root (posixJoin root filename) then s1
  else { s1 with pending := some (t + 250) }

/-- Run the watcher over a timestamped event trace. -/
def runWatch (root : Str) : WatcherState → List (Nat × Str) → WatcherState
  | s, [] => s
  | s, (t, fn) :: rest => runWatch root (onWatchEvent root s t fn) rest

/-- Total rebuild count once quiet time lets any armed timer fire. -/
def finalizeWatch (s : WatcherState) : Nat :=
  match s.pending with
  | some _ => s.rebuilds + 1
  | none => s.rebuilds

/-- Each event of the trace arrives at or after the previous one and
strictly inside the previous event's 250 ms quiet window. -/
def withinWindow : Nat → List (Nat × Str) → Prop
  | _, [] => True
  | prev, (t, _) :: rest => prev ≤ t ∧ t < prev + 250 ∧ withinWindow t rest

instance withinWindowDec : (p : Nat) → (l : List (Nat × Str)) → Decidable (withinWindow p l)
  | _, [] => .isTrue trivial
  | p, (t, _) :: rest =>
    haveI := withinWindowDec t rest
    inferInstanceAs (Decidable (p ≤ t ∧ t < p + 250 ∧ withinWindow t rest))

theorem runWatch_in_window (root : Str) (evs : List (Nat × Str)) :
    ∀ (last n : Nat),
    (∀ ev ∈ evs, ev.2.isEmpty = false
      ∧ isMetaPath root (posixJoin root ev.2) = false) →
    withinWindow last evs →
    (runWatch root ⟨some (last + 250), n⟩ evs).rebuilds = n
    ∧ ∃ T, (runWatch root ⟨some (last + 250), n⟩ evs).pending = some (T + 250) := by
  induction evs with
  | nil => intro last n _ _; exact ⟨rfl, last, rfl⟩
  | cons ev rest ih =>
    intro last n hall hwin
    obtain ⟨t, fn⟩ := ev
    obtain ⟨hle, hlt, hwrest⟩ := hwin
    obtain ⟨hne, hnm⟩ := hall (t, fn) (List.mem_cons_self _ _)
    have hfire : fireIfDue ⟨some (last + 250), n⟩ t = ⟨some (last + 250), n⟩ := by
      unfold fireIfDue
      simp only
      rw [if_neg (by omega)]
    have honev : onWatchEvent root ⟨some (last + 250), n⟩ t fn = ⟨some (t + 250), n⟩ := by
      unfold onWatchEvent
      rw [hfire]
      rw [if_neg (by simp [hne]), if_neg (by simp [hnm])]
    have hstep : runWatch root ⟨some (last + 250), n⟩ ((t, fn) :: rest)
        = runWatch root (onWatchEvent root ⟨some (last + 250), n⟩ t fn) rest := rfl
    rw [hstep, honev]
    exact ih t n (fun e he => hall e (List.mem_cons_of_mem _ he)) hwrest

/-- C9: a nonempty burst of filesystem events outside the metadata
subtree in which every later event arrives within 250 ms of the previous
one produces no rebuild during the burst and exactly one rebuild once
the quiet window elapses: each qualifying event resets the single
pending timer. -/
theorem debounce_single_rebuild (root : Str) (t0 : Nat) (f0 : Str)
    (evs : List (Nat × Str))
    (hall : ∀ ev ∈ (t0, f0) :: evs, ev.2.isEmpty = false
      ∧ isMetaPath root (posixJoin root ev.2) = false)
    (hwin : withinWindow t0 evs) :
    (runWatch root ⟨none, 0⟩ ((t0, f0) :: evs)).rebuilds = 0
    ∧ finalizeWatch (runWatch root ⟨none, 0⟩ ((t0, f0) :: evs)) = 1 := by
  obtain ⟨hne, hnm⟩ := hall (t0, f0) (List.mem_cons_self _ _)
  have honev : onWatchEvent root ⟨none, 0⟩ t0 f0 = ⟨some (t0 + 250), 0⟩ := by
    unfold onWatchEvent fireIfDue
    simp only
    rw [if_neg (by simp [hne]), if_neg (by simp [hnm])]
  have hstep : runWatch root ⟨none, 0⟩ ((t0, f0) :: evs)
      = runWatch root (onWatchEvent root ⟨none, 0⟩ t0 f0) evs := rfl
  rw [hstep, honev]
  obtain ⟨hreb, T, hpend⟩ := runWatch_in_window root evs t0 0
    (fun e he => hall e (List.mem_cons_of_mem _ he)) hwin
  refine ⟨hreb, ?_⟩
  unfold finalizeWatch
  rw [hpend, hreb]

/-- C9 witness: three rapid events 100 ms apart in a workspace rooted at
`/w` fire exactly one rebuild. -/
theorem debounce_single_rebuild_witness :
    (runWatch (str "/w") ⟨none, 0⟩
      [(0, str "a.md"), (100, str "b.md"), (200, str "a.md")]).rebuilds = 0
    ∧ finalizeWatch (runWatch (str "/w") ⟨none, 0⟩
      [(0, str "a.md"), (100, str "b.md"), (200, str "a.md")]) = 1 :=
  debounce_single_rebuild (str "/w") 0 (str "a.md")
    [(100, str "b.md"), (200, str "a.md")] (by decide) (by decide)

/-! ### C10: importFile and getUniquePath -/

/-- Node `path.dirname`. -/
def dirnameOf (p : Str) : Str :=
  let parts := (chSplit '/' p).dropLast
  if parts = [] then ['.']
  else if parts = [[]] then ['/']
  else List.intercalate ['/'] parts

/-- The candidate name `getUniquePath` tries for counter `n`: the base
name with ` (n)` inserted before the extension, in the same directory. -/
def uniqueCandidate (dir base ext : Str) (n : Nat) : Str :=
  posixJoin dir (base ++ str " (" ++ natRepr n ++ str ")" ++ ext)

/-- The loop of `getUniquePath`, by fuel (the source loop runs until a
free name is found; a real directory is finite, so enough fuel exists). -/
def getUniquePathF (ex : Str → Bool) (dir base ext : Str) :
    Nat → Str → Nat → Option Str
  | 0, _, _ => none
  | fuel + 1, cand, counter =>
    if ex cand then
      getUniquePathF ex dir base ext fuel (uniqueCandidate dir base ext counter) (counter + 1)
    else some cand

/-- Model of `getUniquePath` from file-manager.js: try the target itself,
then `base (1).ext`, `base (2).ext`, ... until a name is unused. -/
def getUniquePath (ex : Str → Bool) (fuel : Nat) (target : Str) : Option Str :=
  getUniquePathF ex (dirnameOf target) (basenameNoExt target (extnameOf target))
    (extnameOf target) fuel target 1

/-- Files of the workspace as `importFile` touches them: absolute path to
content. -/
structure ImportFS where
  files : List (Str × Str)
  deriving DecidableEq, Repr

/-- `fs.access` of the model: the path has an entry. -/
def fsExists (fs : ImportFS) (p : Str) : Bool := (fs.files.map Prod.fst).contains p

/-- Content lookup in the modelled filesystem. -/
def lookupFS (fs : ImportFS) (p : Str) : Option Str :=
  (fs.files.find? (fun kv => kv.1 = p)).map Prod.snd

/-- The target-directory resolution of `importFile`: an empty target
directory (falsy in JS) selects the workspace root, otherwise
`resolveSafePath`. -/
def importTargetDir (root td : Str) : Option Str :=
  if td.isEmpty then some root
  else
    match resolveSafePath root td false with
    | .ok d => some d
    | .error _ => none

/-- Model of `importFile` from file-manager.js: resolve the target
directory, pick a unique target via `getUniquePath` for the source's
base name, copy the source there and return the workspace-relative path
of the file written. -/
def importFile (root : Str) (fs : ImportFS) (sourcePath sourceContent : Str)
    (targetDir : Str) (fuel : Nat) : Option (ImportFS × Str) :=
  match importTargetDir root targetDir with
  | none => none
  | some safeDir =>
    match getUniquePath (fsExists fs) fuel (posixJoin safeDir (basenameOf sourcePath)) with
    | none => none
    | some target =>
      some (⟨fs.files ++ [(target, sourceContent)]⟩, posixRelative root target)

theorem find?_append_left {α : Type} (p : α → Bool) (l1 l2 : List α)
    (h : ∃ x ∈ l1, p x = true) : (l1 ++ l2).find? p = l1.find? p := by
  induction l1 with
  | nil => obtain ⟨x, hx, _⟩ := h; exact absurd hx (List.not_mem_nil x)
  | cons a l ih =>
    simp only [List.cons_append, List.find?]
    cases hpa : p a with
    | true => rfl
    | false =>
      apply ih
      obtain ⟨x, hx, hpx⟩ := h
      rcases List.mem_cons.mp hx with rfl | hx2
      · exact absurd hpx (by rw [hpa]; decide)
      · exact ⟨x, hx2, hpx⟩

/-- The loop starting at candidate `counter` returns the first unused
numbered candidate at or above `counter`. -/
theorem getUniquePathF_run (ex : Str → Bool) (dir base ext : Str) :
    ∀ (fuel counter : Nat) (out : Str),
    getUniquePathF ex dir base ext fuel (uniqueCandidate dir base ext counter) (counter + 1)
      = some out →
    ∃ n, counter ≤ n ∧ out = uniqueCandidate dir base ext n
      ∧ ex (uniqueCandidate dir base ext n) = false
      ∧ ∀ m, counter ≤ m → m < n → ex (uniqueCandidate dir base ext m) = true := by
  intro fuel
  induction fuel with
  | zero => intro counter out h; exact absurd h (by simp [getUniquePathF])
  | succ fuel ih =>
    intro counter out h
    rw [getUniquePathF] at h
    cases hex : ex (uniqueCandidate dir base ext counter) with
    | false =>
      rw [hex] at h
      simp only [Bool.false_eq_true, if_false, Option.some.injEq] at h
      exact ⟨counter, Nat.le_refl counter, h.symm, hex, fun m hm1 hm2 => absurd hm2 (by omega)⟩
    | true =>
      rw [hex] at h
      simp only [if_true] at h
      obtain ⟨n, hn1, hn2, hn3, hn4⟩ := ih (counter + 1) out h
      refine ⟨n, by omega, hn2, hn3, ?_⟩
      intro m hm1 hm2
      rcases Nat.eq_or_lt_of_le hm1 with rfl | hm3
      · exact hex
      · exact hn4 m (by omega) hm2

/-- C10: `importFile` never overwrites.  When the resolved target
directory already holds an entry under the source's base name, the copy
is written under the name obtained by inserting ` (n)` before the
extension for the smallest positive `n` whose name is unused, every
already-present path keeps its content, and the returned relative path
names the file actually written. -/
theorem importFile_no_overwrite (root : Str) (fs : ImportFS) (sp sc td : Str)
    (fuel : Nat) (fs' : ImportFS) (rel d : Str)
    (hd : importTargetDir root td = some d)
    (hex : fsExists fs (posixJoin d (basenameOf sp)) = true)
    (himp : importFile root fs sp sc td fuel = some (fs', rel)) :
    ∃ (t : Str) (n : Nat),
      1 ≤ n
      ∧ t = uniqueCandidate (dirnameOf (posixJoin d (basenameOf sp)))
          (basenameNoExt (posixJoin d (basenameOf sp))
            (extnameOf (posixJoin d (basenameOf sp))))
          (extnameOf (posixJoin d (basenameOf sp))) n
      ∧ fsExists fs t = false
      ∧ (∀ m, 1 ≤ m → m < n →
          fsExists fs (uniqueCandidate (dirnameOf (posixJoin d (basenameOf sp)))
            (basenameNoExt (posixJoin d (basenameOf sp))
              (extnameOf (posixJoin d (basenameOf sp))))
            (extnameOf (posixJoin d (basenameOf sp))) m) = true)
      ∧ fs'.files = fs.files ++ [(t, sc)]
      ∧ rel = posixRelative root t
      ∧ (∀ p, p ∈ fs.files.map Prod.fst → lookupFS fs' p = lookupFS fs p) := by
  unfold importFile at himp
  rw [hd] at himp
  have himp2 : (match getUniquePath (fsExists fs) fuel (posixJoin d (basenameOf sp)) with
      | none => none
      | some target =>
        some ((⟨fs.files ++ [(target, sc)]⟩ : ImportFS), posixRelative root target))
      = some (fs', rel) := himp
  clear himp
  cases hget : getUniquePath (fsExists fs) fuel (posixJoin d (basenameOf sp)) with
  | none => rw [hget] at himp2; exact absurd himp2 (by simp)
  | some t =>
    rw [hget] at himp2
    simp only [Option.some.injEq, Prod.mk.injEq] at himp2
    obtain ⟨hfs', hrel⟩ := himp2
    unfold getUniquePath at hget
    cases fuel with
    | zero => exact absurd hget (by simp [getUniquePathF])
    | succ fuel =>
      rw [getUniquePathF, if_pos hex] at hget
      obtain ⟨n, hn1, hn2, hn3, hn4⟩ := getUniquePathF_run (fsExists fs)
        (dirnameOf (posixJoin d (basenameOf sp)))
        (basenameNoExt (posixJoin d (basenameOf sp))
          (extnameOf (posixJoin d (basenameOf sp))))
        (extnameOf (posixJoin d (basenameOf sp))) fuel 1 t hget
      refine ⟨t, n, hn1, hn2, by rw [hn2]; exact hn3, fun m hm1 hm2 => hn4 m hm1 hm2,
        hfs'.symm ▸ rfl, hrel.symm, ?_⟩
      · intro p hp
        rw [← hfs']
        unfold lookupFS
        rw [find?_append_left]
        obtain ⟨kv, hkv, hkvp⟩ := List.mem_map.mp hp
        exact ⟨kv, hkv, by simp [hkvp]⟩

/-- Demonstration filesystem for the C10 witness. -/
def fsC10 : ImportFS := ⟨[(str "/w/doc.md", str "old")]⟩

/-- C10 witness: importing `/tmp/doc.md` into a workspace already holding
`doc.md` writes `doc (1).md` and leaves the existing file alone. -/
theorem importFile_no_overwrite_witness :
    ∃ (t : Str) (n : Nat),
      1 ≤ n
      ∧ t = uniqueCandidate (dirnameOf (posixJoin (str "/w") (basenameOf (str "/tmp/doc.md"))))
          (basenameNoExt (posixJoin (str "/w") (basenameOf (str "/tmp/doc.md")))
            (extnameOf (posixJoin (str "/w") (basenameOf (str "/tmp/doc.md")))))
          (extnameOf (posixJoin (str "/w") (basenameOf (str "/tmp/doc.md")))) n
      ∧ fsExists fsC10 t = false
      ∧ (∀ m, 1 ≤ m → m < n →
          fsExists fsC10 (uniqueCandidate
            (dirnameOf (posixJoin (str "/w") (basenameOf (str "/tmp/doc.md"))))
            (basenameNoExt (posixJoin (str "/w") (basenameOf (str "/tmp/doc.md")))
              (extnameOf (posixJoin (str "/w") (basenameOf (str "/tmp/doc.md")))))
            (extnameOf (posixJoin (str "/w") (basenameOf (str "/tmp/doc.md")))) m) = true)
      ∧ (⟨fsC10.files ++ [(str "/w/doc (1).md", str "new")]⟩ : ImportFS).files
          = fsC10.files ++ [(t, str "new")]
      ∧ str "doc (1).md" = posixRelative (str "/w") t
      ∧ (∀ p, p ∈ fsC10.files.map Prod.fst →
          lookupFS ⟨fsC10.files ++ [(str "/w/doc (1).md", str "new")]⟩ p = lookupFS fsC10 p) :=
  importFile_no_overwrite (str "/w") fsC10 (str "/tmp/doc.md") (str "new") [] 5
    ⟨fsC10.files ++ [(str "/w/doc (1).md", str "new")]⟩ (str "doc (1).md") (str "/w")
    (by decide) (by decide) (by decide)

/-! ### C8: the front-matter round trip

Serializing a parsed metadata mapping with `buildFrontMatter`,
prepending it to a body and parsing again must yield the same mapping.
The development below characterises what `yamlLoad` can produce
(`MGood`), proves that `yamlDump` output re-parses to the same mapping,
and traces the fence regex over the rebuilt document. -/

/-- Join lines with newline separators, no trailing newline. -/
def nlJoin (L : List Str) : Str := List.intercalate ['\n'] L

/-- Join lines with a newline after each line. -/
def joinNL (L : List Str) : Str := (L.map (fun l => l ++ ['\n'])).foldr (· ++ ·) []

/-- The emitted lines of a dumped mapping. -/
def dumpLines (m : List (Str × YScalar)) : List Str :=
  match m with
  | [] => [['\x7b', '\x7d']]
  | _ => m.map (fun kv => kv.1 ++ str ": " ++ renderScalar kv.2)

/-- Scalars that can come out of the line-based loader: strings contain
no newline (other scalars carry no text). -/
def scalarGood : YScalar → Prop
  | .str s => ∀ c ∈ s, c ≠ '\n'
  | _ => True

/-- Shape of every mapping `yamlLoad` can return: well-formed keys,
newline-free string values, and distinct keys. -/
def MGood (m : List (Str × YScalar)) : Prop :=
  (∀ kv ∈ m, keyOk kv.1 = true ∧ scalarGood kv.2) ∧ (m.map Prod.fst).Nodup

theorem yamlDump_eq_joinNL (m : List (Str × YScalar)) :
    yamlDump (.map m) = joinNL (dumpLines m) := by
  cases m with
  | nil => rfl
  | cons kv kvs =>
    simp only [yamlDump, dumpLines, joinNL, List.map_map]
    congr 1

theorem joinNL_cons (l : Str) (L : List Str) :
    joinNL (l :: L) = l ++ '\n' :: joinNL L := by
  simp [joinNL]

theorem nlJoin_singleton (l : Str) : nlJoin [l] = l := by
  simp [nlJoin, List.intercalate]

theorem nlJoin_cons_cons (l l2 : Str) (L2 : List Str) :
    nlJoin (l :: l2 :: L2) = l ++ '\n' :: nlJoin (l2 :: L2) := by
  simp [nlJoin, List.intercalate, List.intersperse_cons_cons]

theorem joinNL_eq_nlJoin (L : List Str) (h : L ≠ []) :
    joinNL L = nlJoin L ++ ['\n'] := by
  induction L with
  | nil => exact absurd rfl h
  | cons l L ih =>
    cases L with
    | nil => simp [joinNL, nlJoin, List.intercalate]
    | cons l2 L2 =>
      rw [joinNL_cons, ih (by simp), nlJoin_cons_cons]
      simp

theorem chSplit_no_sep (sep : Char) (l : Str) (h : ∀ c ∈ l, c ≠ sep) :
    chSplit sep l = [l] := by
  induction l with
  | nil => rfl
  | cons c cs ih =>
    have hc : c ≠ sep := h c (List.mem_cons_self c cs)
    simp only [chSplit]
    rw [if_neg hc, ih (fun x hx => h x (List.mem_cons_of_mem c hx))]

theorem chSplit_append_sep (sep : Char) (l rest : Str) (h : ∀ c ∈ l, c ≠ sep) :
    chSplit sep (l ++ sep :: rest) = l :: chSplit sep rest := by
  induction l with
  | nil => simp [chSplit]
  | cons c cs ih =>
    have hc : c ≠ sep := h c (List.mem_cons_self c cs)
    have ih2 := ih (fun x hx => h x (List.mem_cons_of_mem c hx))
    simp only [List.cons_append, chSplit]
    have ih3 : chSplit sep (cs.append (sep :: rest)) = cs :: chSplit sep rest := ih2
    rw [ih3, if_neg hc]

theorem chSplit_nlJoin (L : List Str) (hne : L ≠ [])
    (h : ∀ l ∈ L, ∀ c ∈ l, c ≠ '\n') :
    chSplit '\n' (nlJoin L) = L := by
  induction L with
  | nil => exact absurd rfl hne
  | cons l L ih =>
    cases L with
    | nil =>
      rw [nlJoin_singleton, chSplit_no_sep '\n' l (h l (List.mem_cons_self l []))]
    | cons l2 L2 =>
      rw [nlJoin_cons_cons, chSplit_append_sep '\n' l _ (h l (List.mem_cons_self _ _))]
      rw [ih (by simp) (fun x hx c hc => h x (List.mem_cons_of_mem l hx) c hc)]

/-! #### Character and list facts for the round trip -/

theorem takeWhile_append_stop (p : Char → Bool) (k : Str) (x : Char) (tail : Str)
    (hk : ∀ c ∈ k, p c = true) (hx : p x = false) :
    (k ++ x :: tail).takeWhile p = k := by
  induction k with
  | nil => simp [List.takeWhile_cons, hx]
  | cons c cs ih =>
    have hc := hk c (List.mem_cons_self c cs)
    simp only [List.cons_append, List.takeWhile_cons, hc, if_true]
    rw [ih (fun d hd => hk d (List.mem_cons_of_mem c hd))]

theorem dropWhile_append_stop (p : Char → Bool) (k : Str) (x : Char) (tail : Str)
    (hk : ∀ c ∈ k, p c = true) (hx : p x = false) :
    (k ++ x :: tail).dropWhile p = x :: tail := by
  induction k with
  | nil => simp [List.dropWhile_cons, hx]
  | cons c cs ih =>
    have hc := hk c (List.mem_cons_self c cs)
    simp only [List.cons_append, List.dropWhile_cons, hc, if_true]
    exact ih (fun d hd => hk d (List.mem_cons_of_mem c hd))

theorem dropWhile_id_of_head (p : Char → Bool) (l : Str)
    (h : ∀ c, l.head? = some c → p c = false) : l.dropWhile p = l := by
  cases l with
  | nil => rfl
  | cons c cs => simp [List.dropWhile_cons, h c rfl]

theorem takeWhile_nil_of_head (p : Char → Bool) (l : Str)
    (h : ∀ c, l.head? = some c → p c = false) : l.takeWhile p = [] := by
  cases l with
  | nil => rfl
  | cons c cs => simp [List.takeWhile_cons, h c rfl]

theorem jsTrim_id (l : Str)
    (h1 : ∀ c, l.head? = some c → isJsWs c = false)
    (h2 : ∀ c, l.getLast? = some c → isJsWs c = false) :
    jsTrim l = l := by
  unfold jsTrim
  rw [dropWhile_id_of_head isJsWs l h1]
  rw [dropWhile_id_of_head isJsWs l.reverse
    (fun c hc => h2 c (by rwa [List.head?_reverse] at hc))]
  exact List.reverse_reverse l

theorem mem_of_mem_dropWhile (p : Char → Bool) (l : Str) (c : Char)
    (h : c ∈ l.dropWhile p) : c ∈ l := by
  induction l with
  | nil => simp at h
  | cons d ds ih =>
    rw [List.dropWhile_cons] at h
    by_cases hp : p d = true
    · rw [if_pos hp] at h
      exact List.mem_cons_of_mem d (ih h)
    · rw [if_neg hp] at h
      exact h

theorem jsTrim_subset (l : Str) (c : Char) (h : c ∈ jsTrim l) : c ∈ l := by
  unfold jsTrim at h
  rw [List.mem_reverse] at h
  have h2 := mem_of_mem_dropWhile _ _ _ h
  rw [List.mem_reverse] at h2
  exact mem_of_mem_dropWhile _ _ _ h2

theorem mem_of_getLast?_eq (l : Str) (c : Char) (h : l.getLast? = some c) : c ∈ l := by
  induction l with
  | nil => simp at h
  | cons d ds ih =>
    cases ds with
    | nil =>
      rw [List.getLast?_singleton] at h
      cases h
      exact List.mem_cons_self _ _
    | cons e es =>
      rw [List.getLast?_cons_cons] at h
      exact List.mem_cons_of_mem d (ih h)

theorem head?_append_cons {l1 l2 : Str} {a : Char} (h : l1.head? = some a) :
    (l1 ++ l2).head? = some a := by
  cases l1 with
  | nil => simp at h
  | cons c cs =>
    cases h
    rfl

theorem not_ws_of_alnum (c : Char) (h : c.isAlphanum = true) : isJsWs c = false := by
  cases hw : isJsWs c with
  | false => rfl
  | true =>
    exfalso
    simp only [isJsWs, Bool.or_eq_true, decide_eq_true_eq] at hw
    rcases hw with ((((h1 | h1) | h1) | h1) | h1) | h1 <;> subst h1 <;>
      exact absurd h (by decide)

theorem not_ws_of_digit (c : Char) (h : c.isDigit = true) : isJsWs c = false := by
  refine not_ws_of_alnum c ?_
  simp [Char.isAlphanum, h]

theorem space_of_plainSafe_ws (c : Char) (h1 : plainSafeChar c = true)
    (h2 : isJsWs c = true) : c = ' ' := by
  simp only [plainSafeChar, Bool.or_eq_true, decide_eq_true_eq] at h1
  rcases h1 with ((((ha | ha) | ha) | ha) | ha) | ha
  · exact absurd h2 (by simp [not_ws_of_alnum c ha])
  · exact ha
  · subst ha; exact absurd h2 (by decide)
  · subst ha; exact absurd h2 (by decide)
  · subst ha; exact absurd h2 (by decide)
  · subst ha; exact absurd h2 (by decide)

theorem plainSafe_ne_nl (c : Char) (h : plainSafeChar c = true) : c ≠ '\n' :=
  fun he => absurd (he ▸ h) (by decide)

theorem plainSafe_ne_quote (c : Char) (h : plainSafeChar c = true) : c ≠ '\x27' :=
  fun he => absurd (he ▸ h) (by decide)

theorem keyChar_ne_nl (c : Char) (h : keyChar c = true) : c ≠ '\n' :=
  fun he => absurd (he ▸ h) (by decide)

theorem keyChar_ne_colon (c : Char) (h : keyChar c = true) : c ≠ ':' :=
  fun he => absurd (he ▸ h) (by decide)

theorem digit_ne_dash (c : Char) (h : c.isDigit = true) : c ≠ '-' :=
  fun he => absurd (he ▸ h) (by decide)

theorem digit_ne_nl (c : Char) (h : c.isDigit = true) : c ≠ '\n' :=
  fun he => absurd (he ▸ h) (by decide)

theorem digit_ne_quote (c : Char) (h : c.isDigit = true) : c ≠ '\x27' :=
  fun he => absurd (he ▸ h) (by decide)

theorem digit_plainSafe (c : Char) (h : c.isDigit = true) : plainSafeChar c = true := by
  simp [plainSafeChar, Char.isAlphanum, h]

theorem alnum_ne_dash (c : Char) (h : c.isAlphanum = true) : c ≠ '-' :=
  fun he => absurd (he ▸ h) (by decide)

theorem escQuote_mem (s : Str) (c : Char) (h : c ∈ escQuote s) : c = '\x27' ∨ c ∈ s := by
  induction s with
  | nil => simp [escQuote] at h
  | cons d ds ih =>
    by_cases hd : d = '\x27'
    · subst hd
      simp only [escQuote, if_pos rfl] at h
      rcases List.mem_cons.mp h with rfl | h2
      · exact Or.inl rfl
      · rcases List.mem_cons.mp h2 with rfl | h3
        · exact Or.inl rfl
        · rcases ih h3 with h4 | h4
          · exact Or.inl h4
          · exact Or.inr (List.mem_cons_of_mem _ h4)
    · simp only [escQuote, if_neg hd] at h
      rcases List.mem_cons.mp h with rfl | h2
      · exact Or.inr (List.mem_cons_self _ _)
      · rcases ih h2 with h3 | h3
        · exact Or.inl h3
        · exact Or.inr (List.mem_cons_of_mem _ h3)

theorem scanQuoted_escQuote (s : Str) :
    scanQuoted (escQuote s ++ ['\x27']) = some (s, []) := by
  induction s with
  | nil => rfl
  | cons c cs ih =>
    by_cases hc : c = '\x27'
    · subst hc
      show (scanQuoted (escQuote cs ++ ['\x27'])).map
        (fun p => ('\x27' :: p.1, p.2)) = some ('\x27' :: cs, [])
      rw [ih]
      rfl
    · have he : escQuote (c :: cs) ++ ['\x27'] = c :: (escQuote cs ++ ['\x27']) := by
        simp only [escQuote, if_neg hc, List.cons_append]
      rw [he]
      have hstep : scanQuoted (c :: (escQuote cs ++ ['\x27']))
          = (scanQuoted (escQuote cs ++ ['\x27'])).map (fun p => (c :: p.1, p.2)) := by
        simp only [scanQuoted]
        rw [if_neg hc]
      rw [hstep, ih]
      rfl

theorem scanQuoted_sub_n (n : Nat) : ∀ l : Str, l.length ≤ n →
    (∀ content rest, scanQuoted l = some (content, rest) → ∀ c ∈ content, c ∈ l)
    ∧ (∀ content rest, scanQuotedQ l = some (content, rest) → ∀ c ∈ content, c ∈ l) := by
  induction n with
  | zero =>
    intro l hl
    cases l with
    | nil =>
      constructor
      · intro content rest h c hc
        simp [scanQuoted] at h
      · intro content rest h c hc
        simp only [scanQuotedQ] at h
        cases h
        simp at hc
    | cons a as => simp at hl
  | succ n ih =>
    intro l hl
    cases l with
    | nil =>
      constructor
      · intro content rest h c hc
        simp [scanQuoted] at h
      · intro content rest h c hc
        simp only [scanQuotedQ] at h
        cases h
        simp at hc
    | cons a as =>
      have hlen : as.length ≤ n := by simp at hl; omega
      constructor
      · intro content rest h c hc
        by_cases ha : a = '\x27'
        · subst ha
          simp only [scanQuoted, if_pos rfl] at h
          exact List.mem_cons_of_mem _ ((ih as hlen).2 content rest h c hc)
        · simp only [scanQuoted] at h
          rw [if_neg ha] at h
          cases hs : scanQuoted as with
          | none => rw [hs] at h; simp at h
          | some p =>
            rw [hs] at h
            simp at h
            obtain ⟨h3, h4⟩ := h
            subst h3
            rcases List.mem_cons.mp hc with rfl | h5
            · exact List.mem_cons_self _ _
            · exact List.mem_cons_of_mem _ ((ih as hlen).1 p.1 p.2 hs c h5)
      · intro content rest h c hc
        by_cases ha : a = '\x27'
        · subst ha
          simp only [scanQuotedQ, if_pos rfl] at h
          cases hs : scanQuoted as with
          | none => rw [hs] at h; simp at h
          | some p =>
            rw [hs] at h
            simp at h
            obtain ⟨h3, h4⟩ := h
            subst h3
            rcases List.mem_cons.mp hc with rfl | h5
            · exact List.mem_cons_self _ _
            · exact List.mem_cons_of_mem _ ((ih as hlen).1 p.1 p.2 hs c h5)
        · simp only [scanQuotedQ] at h
          rw [if_neg ha] at h
          cases h
          simp at hc

theorem scanQuoted_subset (l content rest : Str) (h : scanQuoted l = some (content, rest)) :
    ∀ c ∈ content, c ∈ l :=
  (scanQuoted_sub_n l.length l (Nat.le_refl _)).1 content rest h

theorem intRepr_mem (n : Int) (c : Char) (h : c ∈ intRepr n) :
    c = '-' ∨ c.isDigit = true := by
  unfold intRepr at h
  by_cases hn : n < 0
  · rw [if_pos hn] at h
    rcases List.mem_cons.mp h with rfl | h2
    · exact Or.inl rfl
    · refine Or.inr ?_
      have ha := natRepr_all_digit n.natAbs
      rw [List.all_eq_true] at ha
      exact ha c h2
  · rw [if_neg hn] at h
    refine Or.inr ?_
    have ha := natRepr_all_digit n.toNat
    rw [List.all_eq_true] at ha
    exact ha c h

theorem intRepr_ne_nil (n : Int) : intRepr n ≠ [] := by
  unfold intRepr
  by_cases hn : n < 0
  · rw [if_pos hn]; simp
  · rw [if_neg hn]; exact natRepr_ne_nil _

theorem intRepr_head (n : Int) :
    ∃ c rest, intRepr n = c :: rest ∧ (c = '-' ∨ c.isDigit = true) := by
  cases he : intRepr n with
  | nil => exact absurd he (intRepr_ne_nil n)
  | cons c rest =>
    refine ⟨c, rest, rfl, ?_⟩
    exact intRepr_mem n c (by rw [he]; exact List.mem_cons_self _ _)

theorem intRepr_last_digit (n : Int) (c : Char) (h : (intRepr n).getLast? = some c) :
    c.isDigit = true := by
  unfold intRepr at h
  by_cases hn : n < 0
  · rw [if_pos hn] at h
    cases hl : natRepr n.natAbs with
    | nil => exact absurd hl (natRepr_ne_nil _)
    | cons d ds =>
      rw [hl, List.getLast?_cons_cons] at h
      have hmem := mem_of_getLast?_eq _ _ h
      have ha := natRepr_all_digit n.natAbs
      rw [List.all_eq_true] at ha
      exact ha c (by rw [hl]; exact hmem)
  · rw [if_neg hn] at h
    have ha := natRepr_all_digit n.toNat
    rw [List.all_eq_true] at ha
    exact ha c (mem_of_getLast?_eq _ _ h)

theorem intRepr_all_plainSafe (n : Int) (c : Char) (h : c ∈ intRepr n) :
    plainSafeChar c = true := by
  rcases intRepr_mem n c h with rfl | hd
  · decide
  · exact digit_plainSafe c hd

theorem intRepr_no_newline (n : Int) (c : Char) (h : c ∈ intRepr n) : c ≠ '\n' := by
  rcases intRepr_mem n c h with rfl | hd
  · decide
  · exact digit_ne_nl c hd

theorem plainOk_parts (s : Str) (h : plainOk s = true) :
    s ≠ [] ∧ (∀ c ∈ s, plainSafeChar c = true) ∧ ¬ s.head? = some ' '
    ∧ ¬ s.getLast? = some ' ' ∧ isKeywordLit s = false ∧ intParse? s = none := by
  simp only [plainOk, Bool.and_eq_true_iff] at h
  obtain ⟨⟨⟨⟨⟨h1, h2⟩, h3⟩, h4⟩, h5⟩, h6⟩ := h
  refine ⟨?_, ?_, ?_, ?_, ?_, ?_⟩
  · intro he; subst he; simp at h1
  · intro c hc; rw [List.all_eq_true] at h2; exact h2 c hc
  · simp at h3; exact h3
  · simp at h4; exact h4
  · simp at h5; exact h5
  · rw [Option.isNone_iff_eq_none] at h6; exact h6

theorem parseVal_intRepr (n : Int) : parseVal (intRepr n) = some (.int n) := by
  obtain ⟨c, rest, heq, hcase⟩ := intRepr_head n
  have hcq : ¬ c = '\x27' := by
    rcases hcase with rfl | hd
    · decide
    · exact digit_ne_quote c hd
  have hkw : isKeywordLit (intRepr n) = false := by
    rw [heq]
    have hne4 : c ≠ 't' ∧ c ≠ 'f' ∧ c ≠ 'n' ∧ c ≠ '~' := by
      rcases hcase with rfl | hd
      · exact ⟨by decide, by decide, by decide, by decide⟩
      · exact ⟨fun he => absurd (he ▸ hd) (by decide), fun he => absurd (he ▸ hd) (by decide),
          fun he => absurd (he ▸ hd) (by decide), fun he => absurd (he ▸ hd) (by decide)⟩
    obtain ⟨ht, hf, hn2, htl⟩ := hne4
    simp [isKeywordLit, ht, hf, hn2, htl]
  have hsafe : (intRepr n).all plainSafeChar = true := by
    rw [List.all_eq_true]
    exact fun x hx => intRepr_all_plainSafe n x hx
  simp only [isKeywordLit, Bool.or_eq_false_iff, decide_eq_false_iff_not] at hkw
  obtain ⟨⟨⟨h1, h2⟩, h3⟩, h4⟩ := hkw
  rw [heq]
  simp only [parseVal]
  rw [if_neg hcq, if_neg (heq ▸ h1), if_neg (heq ▸ h2)]
  rw [if_neg (by simp [heq ▸ h3, heq ▸ h4])]
  rw [if_pos (heq ▸ hsafe)]
  rw [← heq, intParse_intRepr]

theorem parseVal_plain (s : Str) (h : plainOk s = true) : parseVal s = some (.str s) := by
  obtain ⟨hne, hsafe, hh, hl, hkw, hnum⟩ := plainOk_parts s h
  cases s with
  | nil => exact absurd rfl hne
  | cons c cs =>
    have hcsafe : plainSafeChar c = true := hsafe c (List.mem_cons_self _ _)
    have hcq : ¬ c = '\x27' := plainSafe_ne_quote c hcsafe
    simp only [isKeywordLit, Bool.or_eq_false_iff, decide_eq_false_iff_not] at hkw
    obtain ⟨⟨⟨h1, h2⟩, h3⟩, h4⟩ := hkw
    simp only [parseVal]
    rw [if_neg hcq, if_neg h1, if_neg h2, if_neg (by simp [h3, h4])]
    rw [if_pos (by rw [List.all_eq_true]; exact hsafe)]
    rw [hnum]

theorem parseVal_quoted (s : Str) (h : plainOk s = false) :
    parseVal (renderScalar (.str s)) = some (.str s) := by
  have hr : renderScalar (.str s) = '\x27' :: (escQuote s ++ ['\x27']) := by
    simp only [renderScalar, h]
    simp
  rw [hr]
  simp only [parseVal, if_true]
  rw [scanQuoted_escQuote]

theorem parseVal_render (v : YScalar) : parseVal (renderScalar v) = some v := by
  cases v with
  | null => decide
  | bool b => cases b <;> decide
  | int n => exact parseVal_intRepr n
  | str s =>
    by_cases hp : plainOk s = true
    · simp only [renderScalar]
      rw [if_pos hp]
      exact parseVal_plain s hp
    · have hp2 : plainOk s = false := by
        cases hpo : plainOk s
        · rfl
        · exact absurd hpo hp
      exact parseVal_quoted s hp2

theorem renderScalar_no_nl (v : YScalar) (hv : scalarGood v) :
    ∀ c ∈ renderScalar v, c ≠ '\n' := by
  cases v with
  | null =>
    intro c hc
    simp [renderScalar] at hc
    rcases hc with rfl | rfl | rfl | rfl <;> decide
  | bool b =>
    cases b with
    | false =>
      intro c hc
      simp [renderScalar] at hc
      rcases hc with rfl | rfl | rfl | rfl | rfl <;> decide
    | true =>
      intro c hc
      simp [renderScalar] at hc
      rcases hc with rfl | rfl | rfl | rfl <;> decide
  | int n => intro c hc; exact intRepr_no_newline n c hc
  | str s =>
    intro c hc
    simp only [renderScalar] at hc
    by_cases hp : plainOk s = true
    · rw [if_pos hp] at hc
      exact plainSafe_ne_nl c ((plainOk_parts s hp).2.1 c hc)
    · rw [if_neg hp] at hc
      rcases List.mem_cons.mp hc with rfl | h2
      · decide
      · rcases List.mem_append.mp h2 with h3 | h3
        · rcases escQuote_mem s c h3 with rfl | h4
          · decide
          · exact hv c h4
        · simp at h3; subst h3; decide

theorem renderScalar_ne_nil (v : YScalar) : renderScalar v ≠ [] := by
  cases v with
  | null => simp [renderScalar]
  | bool b => cases b <;> simp [renderScalar]
  | int n => exact intRepr_ne_nil n
  | str s =>
    simp only [renderScalar]
    by_cases hp : plainOk s = true
    · rw [if_pos hp]; exact (plainOk_parts s hp).1
    · rw [if_neg hp]; simp

theorem renderScalar_head_not_ws (v : YScalar) (c : Char)
    (h : (renderScalar v).head? = some c) : isJsWs c = false := by
  cases v with
  | null => cases h; decide
  | bool b =>
    cases b with
    | false => cases h; decide
    | true => cases h; decide
  | int n =>
    obtain ⟨d, rest, heq, hcase⟩ := intRepr_head n
    rw [show renderScalar (.int n) = intRepr n from rfl, heq] at h
    cases h
    rcases hcase with rfl | hd
    · decide
    · exact not_ws_of_digit _ hd
  | str s =>
    simp only [renderScalar] at h
    by_cases hp : plainOk s = true
    · rw [if_pos hp] at h
      obtain ⟨hne, hsafe, hh, _, _, _⟩ := plainOk_parts s hp
      have hmem : c ∈ s := by
        cases s with
        | nil => simp at h
        | cons a as =>
          cases h
          exact List.mem_cons_self _ _
      have hcsafe := hsafe c hmem
      cases hw : isJsWs c with
      | false => rfl
      | true =>
        have hsp := space_of_plainSafe_ws c hcsafe hw
        subst hsp
        exact absurd h hh
    · rw [if_neg hp] at h
      cases h
      decide

theorem renderScalar_last_not_ws (v : YScalar) (c : Char)
    (h : (renderScalar v).getLast? = some c) : isJsWs c = false := by
  cases v with
  | null => cases h; decide
  | bool b =>
    cases b with
    | false => cases h; decide
    | true => cases h; decide
  | int n =>
    exact not_ws_of_digit c (intRepr_last_digit n c h)
  | str s =>
    simp only [renderScalar] at h
    by_cases hp : plainOk s = true
    · rw [if_pos hp] at h
      obtain ⟨hne, hsafe, _, hl, _, _⟩ := plainOk_parts s hp
      have hmem : c ∈ s := mem_of_getLast?_eq s c h
      have hcsafe := hsafe c hmem
      cases hw : isJsWs c with
      | false => rfl
      | true =>
        have hsp := space_of_plainSafe_ws c hcsafe hw
        subst hsp
        exact absurd h hl
    · rw [if_neg hp] at h
      rw [show ('\x27' :: (escQuote s ++ ['\x27'])) = ('\x27' :: escQuote s) ++ ['\x27']
        by simp] at h
      rw [List.getLast?_concat] at h
      cases h
      decide

theorem keyOk_parts (k : Str) (h : keyOk k = true) :
    ∃ c rest, k = c :: rest ∧ (c.isAlphanum = true ∨ c = '_')
      ∧ ∀ x ∈ k, keyChar x = true := by
  cases k with
  | nil => simp [keyOk] at h
  | cons c rest =>
    simp only [keyOk, Bool.and_eq_true_iff] at h
    obtain ⟨h1, h2⟩ := h
    refine ⟨c, rest, rfl, ?_, ?_⟩
    · simp only [Bool.or_eq_true, decide_eq_true_eq] at h1
      exact h1
    · rw [List.all_eq_true] at h2
      exact h2

theorem parseKV_render (k : Str) (v : YScalar) (hk : keyOk k = true) :
    parseKV (k ++ ':' :: ' ' :: renderScalar v) = some (k, v) := by
  obtain ⟨c, rest, heq, hc1, hall⟩ := keyOk_parts k hk
  have hcolon : keyChar ':' = false := by decide
  have htake : (k ++ ':' :: ' ' :: renderScalar v).takeWhile keyChar = k :=
    takeWhile_append_stop keyChar k ':' _ hall hcolon
  have hdrop : (k ++ ':' :: ' ' :: renderScalar v).dropWhile keyChar
      = ':' :: ' ' :: renderScalar v :=
    dropWhile_append_stop keyChar k ':' _ hall hcolon
  have htrim : jsTrim (renderScalar v) = renderScalar v :=
    jsTrim_id _ (fun d hd => renderScalar_head_not_ws v d hd)
      (fun d hd => renderScalar_last_not_ws v d hd)
  simp only [parseKV, htake, hdrop]
  rw [if_pos hk]
  rw [if_neg (by simp [renderScalar_ne_nil v])]
  rw [if_pos (by simp)]
  rw [htrim, parseVal_render]
  rfl

theorem linesAsKVs_render (m : List (Str × YScalar))
    (h : ∀ kv ∈ m, keyOk kv.1 = true) :
    linesAsKVs (m.map (fun kv => kv.1 ++ str ": " ++ renderScalar kv.2)) = some m := by
  induction m with
  | nil => rfl
  | cons kv kvs ih =>
    simp only [List.map_cons, linesAsKVs]
    have hline : kv.1 ++ str ": " ++ renderScalar kv.2
        = kv.1 ++ ':' :: ' ' :: renderScalar kv.2 := by
      rw [List.append_assoc]
      rfl
    rw [hline, parseKV_render kv.1 kv.2 (h kv (List.mem_cons_self _ _))]
    rw [ih (fun x hx => h x (List.mem_cons_of_mem _ hx))]

theorem nlJoin_head (l : Str) (L : List Str) (c : Char) (h : l.head? = some c) :
    (nlJoin (l :: L)).head? = some c := by
  cases L with
  | nil => rw [nlJoin_singleton]; exact h
  | cons l2 L2 =>
    rw [nlJoin_cons_cons]
    exact head?_append_cons h

theorem dumpLines_good (m : List (Str × YScalar)) (hm : MGood m) :
    dumpLines m ≠ [] ∧ ∀ l ∈ dumpLines m, l ≠ []
      ∧ (∀ c ∈ l, c ≠ '\n')
      ∧ (∀ c, l.head? = some c → c ≠ '-' ∧ isJsWs c = false) := by
  cases m with
  | nil =>
    constructor
    · simp [dumpLines]
    · intro l hl
      simp [dumpLines] at hl
      subst hl
      refine ⟨by simp, ?_, ?_⟩
      · intro c hc
        simp at hc
        rcases hc with rfl | rfl <;> decide
      · intro c hc
        cases hc
        exact ⟨by decide, by decide⟩
  | cons kv0 kvs0 =>
    have hmap : dumpLines (kv0 :: kvs0)
        = (kv0 :: kvs0).map (fun kv => kv.1 ++ str ": " ++ renderScalar kv.2) := rfl
    constructor
    · rw [hmap]; simp
    · intro l hl
      rw [hmap] at hl
      obtain ⟨kv, hkv, rfl⟩ := List.mem_map.mp hl
      obtain ⟨hko, hsg⟩ := hm.1 kv hkv
      obtain ⟨c, rest, hkeq, hc1, hall⟩ := keyOk_parts kv.1 hko
      have hline : kv.1 ++ str ": " ++ renderScalar kv.2
          = kv.1 ++ ':' :: ' ' :: renderScalar kv.2 := by
        rw [List.append_assoc]
        rfl
      refine ⟨?_, ?_, ?_⟩
      · rw [hline, hkeq]; simp
      · intro ch hch
        rw [hline] at hch
        rcases List.mem_append.mp hch with h3 | h3
        · exact keyChar_ne_nl ch (hall ch h3)
        · rcases List.mem_cons.mp h3 with rfl | h4
          · decide
          · rcases List.mem_cons.mp h4 with rfl | h5
            · decide
            · exact renderScalar_no_nl kv.2 hsg ch h5
      · intro ch hch
        rw [hline, hkeq] at hch
        rw [head?_append_cons (show ((c :: rest) : Str).head? = some c from rfl)] at hch
        cases hch
        constructor
        · rcases hc1 with ha | ha
          · exact alnum_ne_dash c ha
          · subst ha; decide
        · rcases hc1 with ha | ha
          · exact not_ws_of_alnum c ha
          · subst ha; decide

theorem yamlLoad_dump (m : List (Str × YScalar)) (hm : MGood m) :
    yamlLoad (nlJoin (dumpLines m)) = some (.map m) := by
  cases m with
  | nil => decide
  | cons kv0 kvs0 =>
    obtain ⟨hne, hgood⟩ := dumpLines_good (kv0 :: kvs0) hm
    have hsplit : chSplit '\n' (nlJoin (dumpLines (kv0 :: kvs0))) = dumpLines (kv0 :: kvs0) :=
      chSplit_nlJoin _ hne (fun l hl => (hgood l hl).2.1)
    have hdl : dumpLines (kv0 :: kvs0)
        = (kv0.1 ++ str ": " ++ renderScalar kv0.2)
          :: kvs0.map (fun kv => kv.1 ++ str ": " ++ renderScalar kv.2) := rfl
    have hlines : linesAsKVs (dumpLines (kv0 :: kvs0)) = some (kv0 :: kvs0) := by
      have hdl2 : dumpLines (kv0 :: kvs0)
          = (kv0 :: kvs0).map (fun kv => kv.1 ++ str ": " ++ renderScalar kv.2) := rfl
      rw [hdl2]
      exact linesAsKVs_render _ (fun x hx => (hm.1 x hx).1)
    obtain ⟨hko0, _⟩ := hm.1 kv0 (List.mem_cons_self _ _)
    obtain ⟨c0, r0, hk0eq, hc01, _⟩ := keyOk_parts kv0.1 hko0
    have hhead : (nlJoin (dumpLines (kv0 :: kvs0))).head? = some c0 := by
      rw [hdl]
      apply nlJoin_head
      rw [hk0eq]
      exact head?_append_cons (head?_append_cons rfl)
    have hb : nlJoin (dumpLines (kv0 :: kvs0)) ≠ ['\x7b', '\x7d'] := by
      intro heq2
      rw [heq2] at hhead
      cases hhead
      rcases hc01 with ha | ha
      · exact absurd ha (by decide)
      · exact absurd ha (by decide)
    have hemp : (nlJoin (dumpLines (kv0 :: kvs0))).isEmpty = false := by
      cases hj : nlJoin (dumpLines (kv0 :: kvs0)) with
      | nil => rw [hj] at hhead; simp at hhead
      | cons a as => rfl
    unfold yamlLoad
    rw [if_neg hb]
    rw [if_neg (by simp [hemp])]
    rw [hsplit, hlines]
    show (if ((kv0 :: kvs0).map Prod.fst).Nodup then some (YVal.map (kv0 :: kvs0)) else none)
      = some (.map (kv0 :: kvs0))
    rw [if_pos hm.2]

theorem chSplit_groups_no_sep (sep : Char) (l : Str) :
    ∀ g ∈ chSplit sep l, ∀ c ∈ g, c ≠ sep := by
  induction l with
  | nil =>
    intro g hg c hc
    simp [chSplit] at hg
    subst hg
    simp at hc
  | cons a as ih =>
    intro g hg c hc
    simp only [chSplit] at hg
    by_cases ha : a = sep
    · rw [if_pos ha] at hg
      rcases List.mem_cons.mp hg with rfl | h2
      · simp at hc
      · exact ih g h2 c hc
    · rw [if_neg ha] at hg
      cases hr : chSplit sep as with
      | nil =>
        rw [hr] at hg
        simp at hg
        subst hg
        simp at hc
        subst hc
        exact ha
      | cons g0 gs =>
        rw [hr] at hg
        rcases List.mem_cons.mp hg with rfl | h2
        · rcases List.mem_cons.mp hc with rfl | h3
          · exact ha
          · exact ih g0 (by rw [hr]; exact List.mem_cons_self _ _) c h3
        · exact ih g (by rw [hr]; exact List.mem_cons_of_mem _ h2) c hc

theorem parseVal_good (w : Str) (v : YScalar)
    (hnl : ∀ c ∈ w, c ≠ '\n')
    (h : parseVal w = some v) : scalarGood v := by
  cases w with
  | nil =>
    simp only [parseVal] at h
    cases h
    trivial
  | cons c rest =>
    simp only [parseVal] at h
    by_cases hc : c = '\x27'
    · rw [if_pos hc] at h
      cases hs : scanQuoted rest with
      | none => rw [hs] at h; simp at h
      | some p =>
        rw [hs] at h
        obtain ⟨content, rest2⟩ := p
        cases rest2 with
        | nil =>
          have h2 : some (YScalar.str content) = some v := h
          cases h2
          intro ch hch
          exact hnl ch (List.mem_cons_of_mem _ (scanQuoted_subset rest content [] hs ch hch))
        | cons d ds =>
          have h2 : (none : Option YScalar) = some v := h
          simp at h2
    · rw [if_neg hc] at h
      by_cases h1 : (c :: rest : Str) = ['t', 'r', 'u', 'e']
      · rw [if_pos h1] at h
        cases h
        trivial
      · rw [if_neg h1] at h
        by_cases h2 : (c :: rest : Str) = ['f', 'a', 'l', 's', 'e']
        · rw [if_pos h2] at h
          cases h
          trivial
        · rw [if_neg h2] at h
          by_cases h3 : ((decide ((c :: rest : Str) = ['n', 'u', 'l', 'l'])
              || decide ((c :: rest : Str) = ['~'])) = true)
          · rw [if_pos h3] at h
            cases h
            trivial
          · rw [if_neg h3] at h
            by_cases h4 : ((c :: rest).all plainSafeChar = true)
            · rw [if_pos h4] at h
              cases hip : intParse? (c :: rest) with
              | some n =>
                rw [hip] at h
                cases h
                trivial
              | none =>
                rw [hip] at h
                cases h
                intro ch hch
                exact hnl ch hch
            · rw [if_neg h4] at h
              simp at h

theorem parseKV_good (line : Str) (k : Str) (v : YScalar)
    (hnl : ∀ c ∈ line, c ≠ '\n')
    (h : parseKV line = some (k, v)) : keyOk k = true ∧ scalarGood v := by
  simp only [parseKV] at h
  by_cases hko : keyOk (line.takeWhile keyChar) = true
  · rw [if_pos hko] at h
    by_cases hcol : line.dropWhile keyChar = [':']
    · rw [if_pos hcol] at h
      simp at h
      obtain ⟨h1, h2⟩ := h
      subst h1
      subst h2
      exact ⟨hko, trivial⟩
    · rw [if_neg hcol] at h
      cases hrest : line.dropWhile keyChar with
      | nil => rw [hrest] at h; simp at h
      | cons c1 rest1 =>
        cases rest1 with
        | nil => rw [hrest] at h; simp at h
        | cons c2 rest2 =>
          rw [hrest] at h
          have h' : (if c1 = ':' ∧ c2 = ' '
              then (parseVal (jsTrim rest2)).map (fun s => (line.takeWhile keyChar, s))
              else none) = some (k, v) := h
          by_cases hcc : c1 = ':' ∧ c2 = ' '
          · rw [if_pos hcc] at h'
            cases hp : parseVal (jsTrim rest2) with
            | none => rw [hp] at h'; simp at h'
            | some sc =>
              rw [hp] at h'
              simp at h'
              obtain ⟨h1, h2⟩ := h'
              subst h1
              subst h2
              refine ⟨hko, ?_⟩
              refine parseVal_good _ sc ?_ hp
              intro ch hch
              have hm1 : ch ∈ rest2 := jsTrim_subset _ ch hch
              have hm2 : ch ∈ line.dropWhile keyChar := by
                rw [hrest]
                exact List.mem_cons_of_mem _ (List.mem_cons_of_mem _ hm1)
              exact hnl ch (mem_of_mem_dropWhile _ _ _ hm2)
          · rw [if_neg hcc] at h'
            simp at h'
  · rw [if_neg hko] at h
    simp at h

theorem linesAsKVs_good : ∀ (ls : List Str) (kvs : List (Str × YScalar)),
    (∀ l ∈ ls, ∀ c ∈ l, c ≠ '\n') → linesAsKVs ls = some kvs →
    ∀ kv ∈ kvs, keyOk kv.1 = true ∧ scalarGood kv.2 := by
  intro ls
  induction ls with
  | nil =>
    intro kvs hnl h
    simp only [linesAsKVs] at h
    cases h
    simp
  | cons l ls2 ih =>
    intro kvs hnl h
    simp only [linesAsKVs] at h
    cases hp : parseKV l with
    | none => rw [hp] at h; simp at h
    | some kv0 =>
      rw [hp] at h
      cases hr : linesAsKVs ls2 with
      | none => rw [hr] at h; simp at h
      | some kvs2 =>
        rw [hr] at h
        have h2 : some (kv0 :: kvs2) = some kvs := h
        cases h2
        intro kv hkv
        rcases List.mem_cons.mp hkv with rfl | h3
        · exact parseKV_good l kv.1 kv.2 (hnl l (List.mem_cons_self _ _)) hp
        · exact ih kvs2 (fun x hx c hc => hnl x (List.mem_cons_of_mem _ hx) c hc) hr kv h3

theorem yamlLoad_good (raw : Str) (m : List (Str × YScalar))
    (h : yamlLoad raw = some (.map m)) : MGood m := by
  unfold yamlLoad at h
  by_cases hb : raw = ['\x7b', '\x7d']
  · rw [if_pos hb] at h
    injection h with h2
    injection h2 with h3
    subst h3
    exact ⟨by simp, by simp⟩
  · rw [if_neg hb] at h
    by_cases he : raw.isEmpty = true
    · rw [if_pos he] at h
      simp at h
    · rw [if_neg he] at h
      cases hkv : linesAsKVs (chSplit '\n' raw) with
      | some kvs =>
        rw [hkv] at h
        have h' : (if (kvs.map Prod.fst).Nodup then some (YVal.map kvs) else none)
            = some (YVal.map m) := h
        by_cases hnd : (kvs.map Prod.fst).Nodup
        · rw [if_pos hnd] at h'
          injection h' with h2
          injection h2 with h3
          subst h3
          constructor
          · exact linesAsKVs_good (chSplit '\n' raw) kvs
              (fun l hl c hc => chSplit_groups_no_sep '\n' raw l hl c hc) hkv
          · exact hnd
        · rw [if_neg hnd] at h'
          simp at h'
      | none =>
        rw [hkv] at h
        cases hcs : chSplit '\n' raw with
        | nil => rw [hcs] at h; simp at h
        | cons l0 ls0 =>
          cases ls0 with
          | nil =>
            rw [hcs] at h
            have h' : (parseVal (jsTrim l0)).map YVal.scalar = some (YVal.map m) := h
            cases hpv : parseVal (jsTrim l0) with
            | none => rw [hpv] at h'; simp at h'
            | some sc => rw [hpv] at h'; simp at h'
          | cons l1 ls1 =>
            rw [hcs] at h
            simp at h

theorem strStartsWith_nl_false (c : Char) (s : Str) (h : c ≠ '\n') :
    strStartsWith (c :: s) (str "\n---") = false := by
  have hd : decide ('\n' = c) = false := decide_eq_false (fun hh => h hh.symm)
  show (decide ('\n' = c) && strStartsWith s (str "---")) = false
  rw [hd]
  rfl

theorem findSubFrom_skip_line (l Y : Str) (idx : Nat)
    (hl : ∀ c ∈ l, c ≠ '\n') :
    findSubFrom (str "\n---") (l ++ Y) idx
      = findSubFrom (str "\n---") Y (idx + l.length) := by
  induction l generalizing idx with
  | nil => simp
  | cons c cs ih =>
    have hc : c ≠ '\n' := hl c (List.mem_cons_self _ _)
    simp only [List.cons_append, findSubFrom]
    rw [strStartsWith_nl_false c _ hc]
    rw [if_neg (by simp)]
    have ih2 : findSubFrom (str "\n---") (cs.append Y) (idx + 1)
        = findSubFrom (str "\n---") Y (idx + 1 + cs.length) :=
      ih (idx + 1) (fun x hx => hl x (List.mem_cons_of_mem _ hx))
    rw [ih2]
    congr 1
    simp [List.length_cons]
    omega

theorem findSubFrom_hit (s : Str) (idx : Nat) :
    findSubFrom (str "\n---") ('\n' :: '-' :: '-' :: '-' :: s) idx = some idx := by
  cases s <;> rfl

theorem findSubFrom_nl_step (d : Char) (s : Str) (idx : Nat) (hd : d ≠ '-') :
    findSubFrom (str "\n---") ('\n' :: d :: s) idx
      = findSubFrom (str "\n---") (d :: s) (idx + 1) := by
  have h1 : decide ('-' = d) = false := decide_eq_false (fun hh => hd hh.symm)
  have hs : strStartsWith ('\n' :: d :: s) (str "\n---") = false := by
    show (decide ('-' = d) && strStartsWith s (str "--")) = false
    rw [h1]
    rfl
  simp only [findSubFrom]
  rw [hs]
  rw [if_neg (by simp)]

theorem findSubFrom_nlJoin : ∀ (L : List Str) (s : Str) (idx : Nat),
    L ≠ [] →
    (∀ l ∈ L, l ≠ [] ∧ (∀ c ∈ l, c ≠ '\n')
      ∧ (∀ c, l.head? = some c → c ≠ '-' ∧ isJsWs c = false)) →
    findSubFrom (str "\n---") (joinNL L ++ ('-' :: '-' :: '-' :: s)) idx
      = some (idx + (nlJoin L).length) := by
  intro L
  induction L with
  | nil =>
    intro s idx hne hgood
    exact absurd rfl hne
  | cons l L2 ih =>
    intro s idx hne hgood
    obtain ⟨hlne, hlnl, hlhd⟩ := hgood l (List.mem_cons_self _ _)
    cases L2 with
    | nil =>
      have e1 : joinNL [l] ++ ('-' :: '-' :: '-' :: s)
          = l ++ ('\n' :: '-' :: '-' :: '-' :: s) := by
        rw [joinNL_cons, List.append_assoc]
        simp [joinNL]
      rw [e1, findSubFrom_skip_line l _ idx hlnl, findSubFrom_hit]
      rw [nlJoin_singleton]
    | cons l2 L3 =>
      obtain ⟨hl2ne, _, hl2hd⟩ := hgood l2 (List.mem_cons_of_mem _ (List.mem_cons_self _ _))
      cases hc2 : l2 with
      | nil => exact absurd hc2 hl2ne
      | cons c2 cs2 =>
        subst hc2
        have e1 : joinNL (l :: (c2 :: cs2) :: L3) ++ ('-' :: '-' :: '-' :: s)
            = l ++ ('\n' :: (joinNL ((c2 :: cs2) :: L3) ++ ('-' :: '-' :: '-' :: s))) := by
          rw [joinNL_cons, List.append_assoc]
          rfl
        have e2 : joinNL ((c2 :: cs2) :: L3) ++ ('-' :: '-' :: '-' :: s)
            = c2 :: (cs2 ++ ('\n' :: (joinNL L3 ++ ('-' :: '-' :: '-' :: s)))) := by
          rw [joinNL_cons, List.append_assoc]
          rfl
        rw [e1, findSubFrom_skip_line l _ idx hlnl]
        rw [e2, findSubFrom_nl_step c2 _ _ (hl2hd c2 rfl).1]
        rw [← e2]
        rw [ih s (idx + l.length + 1) (by simp)
          (fun x hx => hgood x (List.mem_cons_of_mem _ hx))]
        congr 1
        rw [nlJoin_cons_cons]
        simp [List.length_append]
        omega

theorem fmTryAt_fence (t B R : Str)
    (ht : t.drop 1 = B ++ ('\n' :: '-' :: '-' :: '-' :: R))
    (hfind : findSubFrom (str "\n---") (t.drop 1) 1 = some (1 + B.length)) :
    ∃ tail, fmTryAt t 1 = some (B, tail) := by
  simp only [fmTryAt]
  rw [hfind]
  refine ⟨(t.drop (1 + B.length + 4)).drop
    (((t.drop (1 + B.length + 4)).takeWhile isJsWs).length), ?_⟩
  show some ((t.drop 1).take (1 + B.length - 1),
      (t.drop (1 + B.length + 4)).drop
        (((t.drop (1 + B.length + 4)).takeWhile isJsWs).length))
    = some (B, (t.drop (1 + B.length + 4)).drop
        (((t.drop (1 + B.length + 4)).takeWhile isJsWs).length))
  have h1 : 1 + B.length - 1 = B.length := by omega
  have h2 : (t.drop 1).take (1 + B.length - 1) = B := by
    rw [h1, ht]
    exact List.take_left B _
  rw [h2]

theorem fmMatchBody_fences (L : List Str) (rest3 : Str)
    (hne : L ≠ [])
    (hgood : ∀ l ∈ L, l ≠ [] ∧ (∀ c ∈ l, c ≠ '\n')
      ∧ (∀ c, l.head? = some c → c ≠ '-' ∧ isJsWs c = false)) :
    ∃ tail, fmMatchBody ('\n' :: (joinNL L ++ ('-' :: '-' :: '-' :: '\n' :: rest3)))
      = some (nlJoin L, tail) := by
  cases L with
  | nil => exact absurd rfl hne
  | cons l0 L2 =>
    obtain ⟨hl0ne, hl0nl, hl0hd⟩ := hgood l0 (List.mem_cons_self _ _)
    cases hl0 : l0 with
    | nil => exact absurd hl0 hl0ne
    | cons c0 cs0 =>
      subst hl0
      have hS_head : (joinNL ((c0 :: cs0) :: L2)
          ++ ('-' :: '-' :: '-' :: '\n' :: rest3)).head? = some c0 := by
        have h1 : (joinNL ((c0 :: cs0) :: L2)).head? = some c0 := by
          rw [joinNL_cons]
          exact head?_append_cons rfl
        exact head?_append_cons h1
      have hc0ws : isJsWs c0 = false := (hl0hd c0 rfl).2
      have htake : (('\n' :: (joinNL ((c0 :: cs0) :: L2)
          ++ ('-' :: '-' :: '-' :: '\n' :: rest3))) : Str).takeWhile isJsWs = ['\n'] := by
        rw [List.takeWhile_cons]
        rw [if_pos (by decide)]
        rw [takeWhile_nil_of_head isJsWs _ (fun c hc => by
          rw [hS_head] at hc
          cases hc
          exact hc0ws)]
      have hpos : (nlPositions ((('\n' :: (joinNL ((c0 :: cs0) :: L2)
          ++ ('-' :: '-' :: '-' :: '\n' :: rest3))) : Str).takeWhile isJsWs)).reverse
          = [0] := by
        rw [htake]
        rfl
      have ht : (('\n' :: (joinNL ((c0 :: cs0) :: L2)
          ++ ('-' :: '-' :: '-' :: '\n' :: rest3))) : Str).drop 1
          = nlJoin ((c0 :: cs0) :: L2)
            ++ ('\n' :: '-' :: '-' :: '-' :: ('\n' :: rest3)) := by
        show joinNL ((c0 :: cs0) :: L2) ++ ('-' :: '-' :: '-' :: '\n' :: rest3)
          = nlJoin ((c0 :: cs0) :: L2) ++ ('\n' :: '-' :: '-' :: '-' :: ('\n' :: rest3))
        rw [joinNL_eq_nlJoin _ (by simp), List.append_assoc]
        rfl
      have hfind : findSubFrom (str "\n---")
          ((('\n' :: (joinNL ((c0 :: cs0) :: L2)
            ++ ('-' :: '-' :: '-' :: '\n' :: rest3))) : Str).drop 1) 1
          = some (1 + (nlJoin ((c0 :: cs0) :: L2)).length) :=
        findSubFrom_nlJoin ((c0 :: cs0) :: L2) ('\n' :: rest3) 1 (by simp) hgood
      obtain ⟨tail, htry⟩ := fmTryAt_fence
        ('\n' :: (joinNL ((c0 :: cs0) :: L2) ++ ('-' :: '-' :: '-' :: '\n' :: rest3)))
        (nlJoin ((c0 :: cs0) :: L2)) ('\n' :: rest3) ht hfind
      refine ⟨tail, ?_⟩
      simp only [fmMatchBody]
      rw [hpos]
      simp only [firstSome]
      simp only [Nat.zero_add]
      rw [htry]

theorem parseFrontMatter_build (m : List (Str × YScalar)) (body2 : Str) (hm : MGood m) :
    (parseFrontMatter (buildFrontMatter (.map m) ++ body2)).data = some (.map m) := by
  obtain ⟨hdne, hdgood⟩ := dumpLines_good m hm
  have hshape : buildFrontMatter (.map m) ++ body2
      = '-' :: '-' :: '-' :: '\n'
        :: (joinNL (dumpLines m) ++ ('-' :: '-' :: '-' :: '\n' :: ('\n' :: body2))) := by
    simp only [buildFrontMatter]
    rw [yamlDump_eq_joinNL]
    rw [List.append_assoc, List.append_assoc]
    rfl
  obtain ⟨tail, hfm⟩ := fmMatchBody_fences (dumpLines m) ('\n' :: body2) hdne hdgood
  have hsb : stripBOM (buildFrontMatter (.map m) ++ body2)
      = '-' :: '-' :: '-' :: '\n'
        :: (joinNL (dumpLines m) ++ ('-' :: '-' :: '-' :: '\n' :: ('\n' :: body2))) := by
    rw [hshape]
    rfl
  have hsw : strStartsWith (stripBOM (buildFrontMatter (.map m) ++ body2))
      (str "---") = true := by
    rw [hsb]
    rfl
  have hdrop3 : (stripBOM (buildFrontMatter (.map m) ++ body2)).drop 3
      = '\n' :: (joinNL (dumpLines m) ++ ('-' :: '-' :: '-' :: '\n' :: ('\n' :: body2))) := by
    rw [hsb]
    rfl
  simp only [parseFrontMatter]
  rw [if_pos hsw]
  rw [hdrop3, hfm]
  show (match yamlLoad (nlJoin (dumpLines m)) with
      | some v => if jsFalsy v then none else some v
      | none => none) = some (YVal.map m)
  rw [yamlLoad_dump m hm]
  show (if jsFalsy (YVal.map m) then none else some (YVal.map m)) = some (YVal.map m)
  rw [if_neg (by simp [jsFalsy])]

/-- C8: the claim states that for any document whose front matter parses to
a metadata mapping, rebuilding the document with `buildFrontMatter` around
that mapping and parsing again yields the same mapping (parse/serialize
round trip of `parseFrontMatter`/`buildFrontMatter` from file-manager.js,
with yaml load/dump modelled on the flat mappings the fragment produces).
Confirmed. -/
theorem frontMatter_roundtrip (content body2 : Str) (m : List (Str × YScalar))
    (h : (parseFrontMatter content).data = some (.map m)) :
    (parseFrontMatter (buildFrontMatter (.map m) ++ body2)).data = some (.map m) := by
  have hm : MGood m := by
    simp only [parseFrontMatter] at h
    by_cases hsw : strStartsWith (stripBOM content) (str "---") = true
    · rw [if_pos hsw] at h
      cases hfm : fmMatchBody ((stripBOM content).drop 3) with
      | none => rw [hfm] at h; simp at h
      | some pr =>
        rw [hfm] at h
        obtain ⟨raw, body⟩ := pr
        have h2 : (match yamlLoad raw with
            | some v => if jsFalsy v then none else some v
            | none => none) = some (YVal.map m) := h
        cases hy : yamlLoad raw with
        | none => rw [hy] at h2; simp at h2
        | some v =>
          rw [hy] at h2
          have h2b : (if jsFalsy v then none else some v) = some (YVal.map m) := h2
          by_cases hf : jsFalsy v = true
          · rw [if_pos hf] at h2b
            simp at h2b
          · rw [if_neg hf] at h2b
            injection h2b with h3
            subst h3
            exact yamlLoad_good raw m hy
    · rw [if_neg hsw] at h
      simp at h
  exact parseFrontMatter_build m body2 hm

theorem frontMatter_roundtrip_witness :
    (parseFrontMatter (str "---\ntitle: hello\n---\nbody")).data
        = some (.map [(str "title", .str (str "hello"))])
    ∧ (parseFrontMatter (buildFrontMatter (.map [(str "title", .str (str "hello"))])
        ++ str "body2")).data = some (.map [(str "title", .str (str "hello"))]) :=
  ⟨by decide, frontMatter_roundtrip (str "---\ntitle: hello\n---\nbody") (str "body2")
      [(str "title", .str (str "hello"))] (by decide)⟩

/-- C1: the claim states that every relative path with `..` segments or
resolving outside the workspace root is rejected with `Invalid filename`,
equivalently that every returned path is a descendant of the root.  The
source checks `resolved.startsWith(notesDir)` on raw strings, so with the
workspace rooted at `/w` the input `../w2/secret` resolves to
`/w2/secret`, passes the prefix test, and is returned even though it is
not a descendant of `/w`. -/
theorem resolveSafePath_escapes_root :
    resolveSafePath (str "/w") (str "../w2/secret") false = .ok (str "/w2/secret")
    ∧ isDescendantOfRoot (str "/w") (str "/w2/secret") = false := by
  constructor
  · rfl
  · rfl
